import Mathlib

/-!
Verification of the onu_prog compilation pipeline against its specification.

This file gives a shallow embedding, in Lean 4, of the parts of the Rust
source that the checked claims are about:

* src/types.rs        — OnuType
* src/registry.rs     — Registry, register, satisfies, compute_behavior_hash
* src/parser.rs       — Expression, BehaviorHeader, the Hash impl for
                        Expression, consume_identifier, parse_module, the
                        delivers-nothing structural check of parse_behavior,
                        and the integer-literal arm of parse_primary
* src/interpreter.rs  — TerminationChecker
* src/hir.rs          — HirExpression and friends
* src/monomorphize.rs — Monomorphizer
* src/mir.rs          — MirBuilder
* src/lexer.rs        — Token and next_token

Machine integers are modelled as Int or Nat with explicit wrapping where the
source can overflow.  Rust HashMap and HashSet fields are modelled as
association lists and lists; insertion conses a binding in front, which for
lookups is observationally the overwrite semantics of HashMap::insert, and
set insertion is guarded by a containment test.  f32 and f64 payloads are
carried as their IEEE bit patterns (a Nat), which is the only view the
embedded code, notably the Hash and PartialEq impls, ever takes of them.
Spans only decorate diagnostics and are dropped; diagnostic message texts are
abbreviated since no claim depends on their wording.
-/

/-- Association-list lookup with String keys, the view the model takes of
Rust HashMap::get. -/
def alookup {β : Type} : List (String × β) → String → Option β
  | [], _ => none
  | (k, v) :: rest, key => if k = key then some v else alookup rest key

/-- Association-list lookup with Nat keys, used for the semantic-hash table
whose keys are u64 values. -/
def hlookup {β : Type} : List (Nat × β) → Nat → Option β
  | [], _ => none
  | (k, v) :: rest, key => if k = key then some v else hlookup rest key

/-- HashSet::insert as observed through containment queries. -/
def setInsert (s : String) (l : List String) : List String :=
  if l.contains s then l else s :: l

/-- OnuType from src/types.rs: the closed enumeration of value types. -/
inductive OnuType where
  | i8 | i16 | i32 | i64 | i128
  | u8 | u16 | u32 | u64 | u128
  | f32 | f64
  | boolean
  | strings
  | matrix
  | nothing
  | tuple (elems : List OnuType)
  | array (elem : OnuType)
  | shape (name : String)

/-- Constructor tag of an OnuType, an implementation device for stating the
derived structural equality below without a quadratic match. -/
def OnuType.ctorIdx : OnuType → Nat
  | .i8 => 0
  | .i16 => 1
  | .i32 => 2
  | .i64 => 3
  | .i128 => 4
  | .u8 => 5
  | .u16 => 6
  | .u32 => 7
  | .u64 => 8
  | .u128 => 9
  | .f32 => 10
  | .f64 => 11
  | .boolean => 12
  | .strings => 13
  | .matrix => 14
  | .nothing => 15
  | .tuple _ => 16
  | .array _ => 17
  | .shape _ => 18

mutual
/-- Structural equality of OnuType, the derived PartialEq of src/types.rs.
The two payload-free constructors of equal tag compare equal through the
final arm; beq_iff below certifies that this decides propositional
equality. -/
def OnuType.beq : OnuType → OnuType → Bool
  | .tuple ts, .tuple us => OnuType.beqList ts us
  | .array t, .array u => OnuType.beq t u
  | .shape s, .shape t => s = t
  | a, b => a.ctorIdx = b.ctorIdx && a.ctorIdx < 16

/-- Element-wise equality of type lists (Vec of OnuType). -/
def OnuType.beqList : List OnuType → List OnuType → Bool
  | [], [] => true
  | t :: ts, u :: us => OnuType.beq t u && OnuType.beqList ts us
  | _, _ => false
end

mutual
theorem OnuType.beq_eq : (a b : OnuType) → OnuType.beq a b = true → a = b
  | .i8, b, h => by cases b <;> first | rfl | exact Bool.noConfusion h
  | .i16, b, h => by cases b <;> first | rfl | exact Bool.noConfusion h
  | .i32, b, h => by cases b <;> first | rfl | exact Bool.noConfusion h
  | .i64, b, h => by cases b <;> first | rfl | exact Bool.noConfusion h
  | .i128, b, h => by cases b <;> first | rfl | exact Bool.noConfusion h
  | .u8, b, h => by cases b <;> first | rfl | exact Bool.noConfusion h
  | .u16, b, h => by cases b <;> first | rfl | exact Bool.noConfusion h
  | .u32, b, h => by cases b <;> first | rfl | exact Bool.noConfusion h
  | .u64, b, h => by cases b <;> first | rfl | exact Bool.noConfusion h
  | .u128, b, h => by cases b <;> first | rfl | exact Bool.noConfusion h
  | .f32, b, h => by cases b <;> first | rfl | exact Bool.noConfusion h
  | .f64, b, h => by cases b <;> first | rfl | exact Bool.noConfusion h
  | .boolean, b, h => by cases b <;> first | rfl | exact Bool.noConfusion h
  | .strings, b, h => by cases b <;> first | rfl | exact Bool.noConfusion h
  | .matrix, b, h => by cases b <;> first | rfl | exact Bool.noConfusion h
  | .nothing, b, h => by cases b <;> first | rfl | exact Bool.noConfusion h
  | .tuple ts, b, h => by
      cases b <;> first
        | exact congrArg OnuType.tuple (OnuType.beqList_eq ts _ h)
        | exact Bool.noConfusion h
  | .array t, b, h => by
      cases b <;> first
        | exact congrArg OnuType.array (OnuType.beq_eq t _ h)
        | exact Bool.noConfusion h
  | .shape s, b, h => by
      cases b <;> first
        | exact congrArg OnuType.shape (of_decide_eq_true h)
        | exact Bool.noConfusion h

theorem OnuType.beqList_eq : (ts us : List OnuType) → OnuType.beqList ts us = true → ts = us
  | [], [], _ => rfl
  | [], _ :: _, h => Bool.noConfusion h
  | _ :: _, [], h => Bool.noConfusion h
  | t :: ts, u :: us, h => by
      have h2 := (Bool.and_eq_true _ _).mp h
      rw [OnuType.beq_eq t u h2.1, OnuType.beqList_eq ts us h2.2]
end

mutual
theorem OnuType.beq_refl : (a : OnuType) → OnuType.beq a a = true
  | .i8 => rfl
  | .i16 => rfl
  | .i32 => rfl
  | .i64 => rfl
  | .i128 => rfl
  | .u8 => rfl
  | .u16 => rfl
  | .u32 => rfl
  | .u64 => rfl
  | .u128 => rfl
  | .f32 => rfl
  | .f64 => rfl
  | .boolean => rfl
  | .strings => rfl
  | .matrix => rfl
  | .nothing => rfl
  | .tuple ts => OnuType.beqList_refl ts
  | .array t => OnuType.beq_refl t
  | .shape s => by simp [OnuType.beq]

theorem OnuType.beqList_refl : (ts : List OnuType) → OnuType.beqList ts ts = true
  | [] => rfl
  | t :: ts => by
      have h1 := OnuType.beq_refl t
      have h2 := OnuType.beqList_refl ts
      simp [OnuType.beqList, h1, h2]
end

theorem OnuType.beq_iff (a b : OnuType) : OnuType.beq a b = true ↔ a = b :=
  ⟨OnuType.beq_eq a b, fun h => h ▸ OnuType.beq_refl a⟩

/-- BehaviorSignature from src/registry.rs: the contract of a behavior. -/
structure BehaviorSignature where
  input_types : List OnuType
  return_type : OnuType

/-- Derived PartialEq of BehaviorSignature. -/
def BehaviorSignature.beq (a b : BehaviorSignature) : Bool :=
  OnuType.beqList a.input_types b.input_types && OnuType.beq a.return_type b.return_type

theorem BehaviorSignature.beq_iff_eq (a b : BehaviorSignature) :
    BehaviorSignature.beq a b = true ↔ a = b := by
  cases a with
  | mk ia ra =>
    cases b with
    | mk ib rb =>
      simp only [BehaviorSignature.beq, Bool.and_eq_true, OnuType.beq_iff,
        BehaviorSignature.mk.injEq]
      constructor
      · intro h
        exact ⟨OnuType.beqList_eq _ _ h.1, h.2⟩
      · rintro ⟨h1, h2⟩
        exact ⟨h1 ▸ OnuType.beqList_refl ia, h2⟩

/-- OnuError from src/error.rs, message texts abbreviated, spans dropped. -/
inductive OnuError where
  | lexicalError (message : String)
  | parseError (message : String)
  | runtimeError (message : String)
  | behaviorConflict (name other_name : String)
  | monomorphizationError (message : String)
  | borrowError (message : String)
  | codeGenError (message : String)
deriving DecidableEq

/-- The Registry of src/registry.rs.  HashMap fields become association
lists, HashSet fields become lists queried through contains. -/
structure Registry where
  entries : List (Nat × String)
  names : List String
  implemented_names : List String
  arities : List (String × Nat)
  signatures : List (String × BehaviorSignature)
  shapes : List (String × List (String × BehaviorSignature))
  suites : List String

/-- Registry::new. -/
def Registry.new : Registry := ⟨[], [], [], [], [], [], []⟩

/-- Registry::register, src/registry.rs lines 102 to 113.  The Rust method
mutates the registry and returns a Result; the model returns the resulting
registry next to the Result, the error case returning the receiver
untouched exactly as the early return does. -/
def Registry.register (r : Registry) (name : String) (hash : Nat) :
    Registry × Except OnuError Unit :=
  match hlookup r.entries hash with
  | some existing_name => (r, .error (.behaviorConflict name existing_name))
  | none =>
      ({ r with
          names := setInsert name r.names
          implemented_names := setInsert name r.implemented_names
          entries := (hash, name) :: r.entries },
       .ok ())

/-- Registry::is_registered. -/
def Registry.is_registered (r : Registry) (name : String) : Bool :=
  r.names.contains name

/-- Registry::is_implemented. -/
def Registry.is_implemented (r : Registry) (name : String) : Bool :=
  r.implemented_names.contains name

/-- Registry::mark_implemented. -/
def Registry.mark_implemented (r : Registry) (name : String) : Registry :=
  { r with implemented_names := setInsert name r.implemented_names }

/-- Registry::add_shape. -/
def Registry.add_shape (r : Registry) (name : String)
    (behaviors : List (String × BehaviorSignature)) : Registry :=
  { r with shapes := (name, behaviors) :: r.shapes }

/-- Registry::add_signature. -/
def Registry.add_signature (r : Registry) (name : String)
    (signature : BehaviorSignature) : Registry :=
  { r with
      names := setInsert name r.names
      arities := (name, signature.input_types.length) :: r.arities
      signatures := (name, signature) :: r.signatures }

/-- Registry::get_arity. -/
def Registry.get_arity (r : Registry) (name : String) : Option Nat :=
  alookup r.arities name

/-- Registry::get_signature. -/
def Registry.get_signature (r : Registry) (name : String) : Option BehaviorSignature :=
  alookup r.signatures name

/-- Registry::satisfies, src/registry.rs lines 159 to 177.  The for loop
with early returns is the conjunction over the shape's promises; a promise
whose name has no entry in the signatures map skips the signature
comparison, exactly as the if-let does. -/
def Registry.satisfies (r : Registry) (_type_name : String) (shape_name : String) : Bool :=
  match alookup r.shapes shape_name with
  | some required_behaviors =>
      required_behaviors.all (fun p =>
        r.implemented_names.contains p.1 &&
        (match alookup r.signatures p.1 with
         | some existing_sig => BehaviorSignature.beq existing_sig p.2
         | none => true))
  | none => false

/-- Claim C1: Registry::register refuses a duplicate semantic hash with a
BehaviorConflict naming the new behavior and the earlier holder and leaves
every field of the Registry unchanged; on a fresh hash it succeeds, after
which the name is registered and implemented and the hash maps to it. -/
theorem register_conflict_and_success (r : Registry) (name : String) (hash : Nat) :
    (∀ other, hlookup r.entries hash = some other →
        Registry.register r name hash = (r, .error (.behaviorConflict name other)))
    ∧ (hlookup r.entries hash = none →
        (Registry.register r name hash).2 = .ok ()
        ∧ (Registry.register r name hash).1.is_registered name = true
        ∧ (Registry.register r name hash).1.is_implemented name = true
        ∧ hlookup (Registry.register r name hash).1.entries hash = some name) := by
  constructor
  · intro other h
    simp [Registry.register, h]
  · intro h
    refine ⟨by simp [Registry.register, h], ?_, ?_, ?_⟩
    · simp only [Registry.register, h, Registry.is_registered, setInsert]
      split
      · next hc => exact hc
      · simp
    · simp only [Registry.register, h, Registry.is_implemented, setInsert]
      split
      · next hc => exact hc
      · simp
    · simp [Registry.register, h, hlookup]

/-- Witness for C1 at a concrete registry: a populated hash conflicts naming
the earlier holder, a fresh hash registers. -/
theorem register_conflict_and_success_witness :
    (Registry.register { Registry.new with entries := [(5, "foo")] } "bar" 5
        = ({ Registry.new with entries := [(5, "foo")] }, .error (.behaviorConflict "bar" "foo")))
    ∧ ((Registry.register Registry.new "baz" 7).1.is_registered "baz" = true) :=
  ⟨(register_conflict_and_success { Registry.new with entries := [(5, "foo")] } "bar" 5).1
      "foo" rfl,
   ((register_conflict_and_success Registry.new "baz" 7).2 rfl).2.1⟩

/-- Counterexample to claim C6 as stated: a shape whose single promised
behavior is marked implemented but has no registered signature.  The claim
requires the registered signature to equal the promised one, so it predicts
false; Registry::satisfies skips the comparison when no signature is
registered and returns true. -/
def c6Registry : Registry :=
  { Registry.new with
      shapes := [("S", [("b", ⟨[OnuType.i64], OnuType.f64⟩)])]
      implemented_names := ["b"] }

/-- Claim C6, counterexample: satisfies returns true although no signature
is registered for the promised behavior b, hence no registered signature
structurally matches the promise. -/
theorem satisfies_true_without_signature :
    c6Registry.satisfies "Widget" "S" = true
    ∧ c6Registry.get_signature "b" = none := by
  constructor <;> rfl

/-- Claim C6 as amended: satisfies is true iff the shape is registered and
every promised behavior is in the implemented set and, when a signature is
registered for it, that signature equals the promise; a promised behavior
with no registered signature passes the signature comparison. -/
theorem satisfies_characterization (r : Registry) (t s : String) :
    r.satisfies t s = true ↔
      ∃ promises, alookup r.shapes s = some promises ∧
        ∀ p ∈ promises, r.implemented_names.contains p.1 = true ∧
          (alookup r.signatures p.1 = none ∨ alookup r.signatures p.1 = some p.2) := by
  unfold Registry.satisfies
  constructor
  · intro h
    split at h
    · next promises hl =>
      refine ⟨promises, hl, ?_⟩
      intro p hp
      have := (List.all_eq_true.mp h) p hp
      simp only [Bool.and_eq_true] at this
      refine ⟨this.1, ?_⟩
      rcases hsig : alookup r.signatures p.1 with _ | existing
      · exact Or.inl rfl
      · right
        have h2 := this.2
        rw [hsig] at h2
        have : existing = p.2 := (BehaviorSignature.beq_iff_eq existing p.2).mp h2
        rw [this]
    · exact absurd h (by simp)
  · rintro ⟨promises, hl, hall⟩
    rw [hl]
    refine List.all_eq_true.mpr ?_
    intro p hp
    rcases hall p hp with ⟨h1, h2⟩
    simp only [Bool.and_eq_true]
    refine ⟨h1, ?_⟩
    rcases h2 with h2 | h2
    · rw [h2]
    · rw [h2]
      exact (BehaviorSignature.beq_iff_eq p.2 p.2).mpr rfl

/-- Witness for the amended C6 at a concrete registry in the forward
direction, on a shape with a matching implemented-and-signed promise. -/
theorem satisfies_characterization_witness :
    ({ Registry.new with
        shapes := [("T", [("m", ⟨[OnuType.f64], OnuType.f64⟩)])]
        implemented_names := ["m"]
        signatures := [("m", ⟨[OnuType.f64], OnuType.f64⟩)] } : Registry).satisfies "W" "T"
      = true :=
  (satisfies_characterization _ "W" "T").mpr
    ⟨[("m", ⟨[OnuType.f64], OnuType.f64⟩)], rfl, by
      intro p hp
      simp only [List.mem_singleton] at hp
      subst hp
      exact ⟨rfl, Or.inr rfl⟩⟩

set_option maxHeartbeats 1600000 in
/-- Token from src/lexer.rs.  The enum in src/lexer.rs carries the variants
up to RBracket; src/parser.rs additionally matches on the verb and sugar
variants from Broadcasts onward, so the model takes the union (the two
files reflect slightly different revisions of the same enum).  The f64
payload of NumericLiteral is abstracted by its source text: no checked
claim depends on its numeric value. -/
inductive Token where
  | Let | Is | The
  | Integer | Float | RealNumber | Strings | Matrix
  | Identifier (name : String)
  | NumericLiteral (raw : String)
  | IntegerLiteral (value : Int)
  | TextLiteral (content : String)
  | BooleanLiteral (value : Bool)
  | TheModuleCalled | TheShape | TheBehaviorCalled | TheEffectBehaviorCalled
  | Called
  | With | WithIntent | WithConcern | WithDiminishing | NoGuaranteedTermination
  | Receiving | Returning | As | Keeps | KeepsInternal | Exposes | Promises
  | Colon | A | An | Via | Role
  | Emit | Nothing | If | Then | Else
  | LParen | RParen | LBracket | RBracket
  | Broadcasts | Of | Derivation | DerivesFrom | Takes | Delivers
  | Utilizes | ActsAs
  | Matches | Exceeds | FallsShortOf | ScalesBy | PartitionsBy
  | UnitesWith | JoinsWith | Opposes | DecreasedBy | InitOf | TailOf

/-- Constructor tag of a Token, the model of std::mem::discriminant in the
manual PartialEq impl of src/lexer.rs lines 84 to 95. -/
def Token.ctorIdx : Token → Nat
  | .Let => 0
  | .Is => 1
  | .The => 2
  | .Integer => 3
  | .Float => 4
  | .RealNumber => 5
  | .Strings => 6
  | .Matrix => 7
  | .Identifier _ => 8
  | .NumericLiteral _ => 9
  | .IntegerLiteral _ => 10
  | .TextLiteral _ => 11
  | .BooleanLiteral _ => 12
  | .TheModuleCalled => 13
  | .TheShape => 14
  | .TheBehaviorCalled => 15
  | .TheEffectBehaviorCalled => 16
  | .Called => 17
  | .With => 18
  | .WithIntent => 19
  | .WithConcern => 20
  | .WithDiminishing => 21
  | .NoGuaranteedTermination => 22
  | .Receiving => 23
  | .Returning => 24
  | .As => 25
  | .Keeps => 26
  | .KeepsInternal => 27
  | .Exposes => 28
  | .Promises => 29
  | .Colon => 30
  | .A => 31
  | .An => 32
  | .Via => 33
  | .Role => 34
  | .Emit => 35
  | .Nothing => 36
  | .If => 37
  | .Then => 38
  | .Else => 39
  | .LParen => 40
  | .RParen => 41
  | .LBracket => 42
  | .RBracket => 43
  | .Broadcasts => 44
  | .Of => 45
  | .Derivation => 46
  | .DerivesFrom => 47
  | .Takes => 48
  | .Delivers => 49
  | .Utilizes => 50
  | .ActsAs => 51
  | .Matches => 52
  | .Exceeds => 53
  | .FallsShortOf => 54
  | .ScalesBy => 55
  | .PartitionsBy => 56
  | .UnitesWith => 57
  | .JoinsWith => 58
  | .Opposes => 59
  | .DecreasedBy => 60
  | .InitOf => 61
  | .TailOf => 62

set_option maxHeartbeats 1600000 in
/-- The manual PartialEq impl for Token, src/lexer.rs lines 84 to 95: the
five payload variants compare their payloads (NumericLiteral through its
f64 bits, here the raw spelling), every other pair compares by
discriminant.  A payload variant paired with itself is consumed by its own
arm, so the catch-all's discriminant equality only ever affirms
payload-free pairs. -/
def Token.beq : Token → Token → Bool
  | .Identifier s1, .Identifier s2 => s1 == s2
  | .NumericLiteral n1, .NumericLiteral n2 => n1 == n2
  | .IntegerLiteral n1, .IntegerLiteral n2 => n1 == n2
  | .TextLiteral s1, .TextLiteral s2 => s1 == s2
  | .BooleanLiteral b1, .BooleanLiteral b2 => b1 == b2
  | a, b => a.ctorIdx == b.ctorIdx

/-- TypeInfo from src/parser.rs: grammatical metadata of a type mention. -/
structure TypeInfo where
  onu_type : OnuType
  display_name : String
  article : Token
  via_role : Option String

/-- Argument from src/parser.rs: one named provision of a receiving clause. -/
structure Argument where
  name : String
  type_info : TypeInfo

/-- Expression from src/parser.rs.  Signed payloads are Int, unsigned are
Nat, and the float payloads are IEEE bit patterns, the only view the
embedded Hash and PartialEq impls take of them.  The source wraps
sub-expressions in Box; the model nests directly. -/
inductive Expression where
  | i8 (n : Int)
  | i16 (n : Int)
  | i32 (n : Int)
  | i64 (n : Int)
  | i128 (n : Int)
  | u8 (n : Nat)
  | u16 (n : Nat)
  | u32 (n : Nat)
  | u64 (n : Nat)
  | u128 (n : Nat)
  | f32 (bits : Nat)
  | f64 (bits : Nat)
  | boolean (b : Bool)
  | text (s : String)
  | identifier (s : String)
  | nothing
  | tuple (elems : List Expression)
  | array (elems : List Expression)
  | matrix (rows cols : Nat) (data : List Expression)
  | emit (e : Expression)
  | broadcasts (e : Expression)
  | derivation (name : String) (type_info : Option TypeInfo)
      (value : Expression) (body : Expression)
  | actsAs (subject : Expression) (shape : String)
  | behaviorCall (name : String) (args : List Expression)
  | ifE (condition : Expression) (then_branch : Expression) (else_branch : Expression)
  | block (elems : List Expression)

/-- BehaviorHeader from src/parser.rs.  The delivers field inlines the
ReturnType newtype wrapper. -/
structure BehaviorHeader where
  name : String
  is_effect : Bool
  intent : String
  takes : List Argument
  delivers : OnuType
  diminishing : Option String
  skip_termination_check : Bool

/-- Discourse from src/parser.rs: the three top-level source units. -/
inductive Discourse where
  | module (name concern : String)
  | shape (name : String) (behaviors : List BehaviorHeader)
  | behavior (header : BehaviorHeader) (body : Expression)

/-- One write performed against the Hasher by the Hash impls of
src/parser.rs, src/registry.rs and src/types.rs: a discriminant write, a
signed or unsigned machine-integer write of the given bit width (usize
writes with width 64), a str write (the bytes plus the 0xff terminator),
or a bool write.  The u64 that DefaultHasher finally produces is a pure
function of this write stream, so equality and inequality of streams model
equality and inequality of semantic hashes. -/
inductive HashAtom where
  | disc (n : Nat)
  | wI (width : Nat) (v : Int)
  | wU (width : Nat) (v : Nat)
  | wStr (s : String)
  | wBool (b : Bool)
deriving DecidableEq

mutual
/-- The manual Hash impl for Expression, src/parser.rs lines 132 to 182:
first the discriminant (numbered in declaration order), then the fields in
order.  Float payloads hash via to_bits; the Derivation arm skips the
type_info field; Vec fields write their length and then each element. -/
def Expression.hashAtoms : Expression → List HashAtom
  | .i8 n => [.disc 0, .wI 8 n]
  | .i16 n => [.disc 1, .wI 16 n]
  | .i32 n => [.disc 2, .wI 32 n]
  | .i64 n => [.disc 3, .wI 64 n]
  | .i128 n => [.disc 4, .wI 128 n]
  | .u8 n => [.disc 5, .wU 8 n]
  | .u16 n => [.disc 6, .wU 16 n]
  | .u32 n => [.disc 7, .wU 32 n]
  | .u64 n => [.disc 8, .wU 64 n]
  | .u128 n => [.disc 9, .wU 128 n]
  | .f32 bits => [.disc 10, .wU 32 bits]
  | .f64 bits => [.disc 11, .wU 64 bits]
  | .boolean b => [.disc 12, .wBool b]
  | .text s => [.disc 13, .wStr s]
  | .identifier s => [.disc 14, .wStr s]
  | .nothing => [.disc 15]
  | .tuple es => .disc 16 :: .wU 64 es.length :: Expression.hashAtomsList es
  | .array es => .disc 17 :: .wU 64 es.length :: Expression.hashAtomsList es
  | .matrix rows cols data =>
      .disc 18 :: .wU 64 rows :: .wU 64 cols
        :: .wU 64 data.length :: Expression.hashAtomsList data
  | .emit e => .disc 19 :: Expression.hashAtoms e
  | .broadcasts e => .disc 20 :: Expression.hashAtoms e
  | .derivation name _type_info value body =>
      .disc 21 :: .wStr name :: (Expression.hashAtoms value ++ Expression.hashAtoms body)
  | .actsAs subject shape =>
      .disc 22 :: (Expression.hashAtoms subject ++ [.wStr shape])
  | .behaviorCall name args =>
      .disc 23 :: .wStr name :: .wU 64 args.length :: Expression.hashAtomsList args
  | .ifE c t e =>
      .disc 24 :: (Expression.hashAtoms c ++ Expression.hashAtoms t ++ Expression.hashAtoms e)
  | .block es => .disc 25 :: .wU 64 es.length :: Expression.hashAtomsList es

/-- Element writes of a hashed Vec of Expression. -/
def Expression.hashAtomsList : List Expression → List HashAtom
  | [] => []
  | e :: es => Expression.hashAtoms e ++ Expression.hashAtomsList es
end

mutual
/-- Derived Hash of OnuType, src/types.rs: discriminant then fields. -/
def OnuType.hashAtoms : OnuType → List HashAtom
  | .i8 => [.disc 0]
  | .i16 => [.disc 1]
  | .i32 => [.disc 2]
  | .i64 => [.disc 3]
  | .i128 => [.disc 4]
  | .u8 => [.disc 5]
  | .u16 => [.disc 6]
  | .u32 => [.disc 7]
  | .u64 => [.disc 8]
  | .u128 => [.disc 9]
  | .f32 => [.disc 10]
  | .f64 => [.disc 11]
  | .boolean => [.disc 12]
  | .strings => [.disc 13]
  | .matrix => [.disc 14]
  | .nothing => [.disc 15]
  | .tuple ts => .disc 16 :: .wU 64 ts.length :: OnuType.hashAtomsList ts
  | .array t => .disc 17 :: OnuType.hashAtoms t
  | .shape s => [.disc 18, .wStr s]

/-- Element writes of a hashed Vec of OnuType. -/
def OnuType.hashAtomsList : List OnuType → List HashAtom
  | [] => []
  | t :: ts => OnuType.hashAtoms t ++ OnuType.hashAtomsList ts
end

/-- Derived Hash of BehaviorSignature, src/registry.rs: the input Vec then
the return type. -/
def BehaviorSignature.hashAtoms (sig : BehaviorSignature) : List HashAtom :=
  .wU 64 sig.input_types.length :: OnuType.hashAtomsList sig.input_types
    ++ OnuType.hashAtoms sig.return_type

/-- The full write stream that compute_behavior_hash of src/registry.rs
lines 37 to 42 feeds to its DefaultHasher: first the body, then the
signature. -/
def behaviorHashInput (body : Expression) (sig : BehaviorSignature) : List HashAtom :=
  Expression.hashAtoms body ++ BehaviorSignature.hashAtoms sig

/-- compute_behavior_hash relative to an arbitrary deterministic digest of
the write stream.  DefaultHasher (SipHash 1-3 with fixed keys) is one such
digest; every claim about hash equality or inequality reduces to the
stream. -/
def compute_behavior_hash (hasher : List HashAtom → Nat)
    (body : Expression) (signature : BehaviorSignature) : Nat :=
  hasher (behaviorHashInput body signature)

/-- Claim C5, checked at the failing input.  First part: the let spelling
and the derivation spelling both parse to the Derivation node, differing at
most in the type_info field, which the Hash impl skips, so those two
spellings always collide, whatever the hasher.  Second part: an emit body
and the otherwise-identical broadcasts body are distinct AST variants whose
write streams differ at the discriminant write (19 against 20), so the two
spellings feed different inputs to the hasher and the claimed collision of
compute_behavior_hash fails for them. -/
theorem hash_stream_of_spellings :
    (∀ (hasher : List HashAtom → Nat) (n : String) (ti : Option TypeInfo)
        (v b : Expression) (sig : BehaviorSignature),
        compute_behavior_hash hasher (.derivation n ti v b) sig
          = compute_behavior_hash hasher (.derivation n none v b) sig)
    ∧ behaviorHashInput (.emit (.i64 1)) ⟨[], .i64⟩
        ≠ behaviorHashInput (.broadcasts (.i64 1)) ⟨[], .i64⟩ := by
  constructor
  · intro hasher n ti v b sig
    rfl
  · decide

/-! The TerminationChecker of src/interpreter.rs lines 236 to 362.  Its
visitor state is the smaller_vars HashMap from derived variable names to
the input variables they are smaller than; the model threads it as an
association list through an Except-valued traversal.  The visitor match of
src/interpreter.rs predates the ActsAs and Broadcasts variants of
Expression; the model recurses into their children the way every other
static visitor of the file treats wrapper nodes. -/

/-- The smaller_vars insertion of visit_let, src/interpreter.rs lines 297
to 304: record the binding when the defining expression is a decreased-by
call whose first argument is an identifier. -/
def letInsert (name : String) (value : Expression) (m : List (String × String)) :
    List (String × String) :=
  match value with
  | .behaviorCall op args =>
      if op = "decreased-by" then
        match args.head? with
        | some (.identifier input_name) => (name, input_name) :: m
        | _ => m
      else m
  | _ => m

theorem alookup_letInsert (name : String) (value : Expression)
    (m : List (String × String)) (k : String) (hk : ¬ name = k) :
    alookup (letInsert name value m) k = alookup m k := by
  unfold letInsert
  split
  · split
    · split
      · simp only [alookup]
        rw [if_neg hk]
      · rfl
    · rfl
  · rfl

mutual
/-- One visit_expression step of the TerminationChecker: visit_let records
a derivation whose defining expression is a decreased-by call with an
identifier first argument, visit_behavior_call performs the recursion
check before descending into the arguments, and every other arm just
recurses. -/
def tcVisit (hdr : BehaviorHeader) :
    Expression → List (String × String) → Except OnuError (List (String × String))
  | .derivation name _type_info value body, m =>
      match tcVisit hdr value (letInsert name value m) with
      | .error err => .error err
      | .ok m2 => tcVisit hdr body m2
  | .behaviorCall name args, m =>
      if name = hdr.name then
        if hdr.skip_termination_check then
          tcVisitList hdr args m
        else
          match hdr.diminishing with
          | none =>
              .error (.parseError
                "Termination Error: recursive call requires a with-diminishing clause in the behavior header")
          | some diminishing_input =>
              let valid : Bool :=
                match args.head? with
                | some (.identifier arg_name) =>
                    match alookup m arg_name with
                    | some parent => parent = diminishing_input
                    | none => false
                | _ => false
              if valid then
                tcVisitList hdr args m
              else
                .error (.parseError
                  "Termination Error: recursive call must pass an argument strictly smaller than the diminishing input")
      else
        tcVisitList hdr args m
  | .ifE condition then_branch else_branch, m =>
      match tcVisit hdr condition m with
      | .error err => .error err
      | .ok m1 =>
          match tcVisit hdr then_branch m1 with
          | .error err => .error err
          | .ok m2 => tcVisit hdr else_branch m2
  | .block es, m => tcVisitList hdr es m
  | .tuple es, m => tcVisitList hdr es m
  | .array es, m => tcVisitList hdr es m
  | .matrix _ _ data, m => tcVisitList hdr data m
  | .emit e, m => tcVisit hdr e m
  | .broadcasts e, m => tcVisit hdr e m
  | .actsAs subject _, m => tcVisit hdr subject m
  | _, m => .ok m

/-- Sequential visit of an argument or element list, threading the state
exactly as the &mut self for loops do. -/
def tcVisitList (hdr : BehaviorHeader) :
    List Expression → List (String × String) → Except OnuError (List (String × String))
  | [], m => .ok m
  | e :: es, m =>
      match tcVisit hdr e m with
      | .error err => .error err
      | .ok m1 => tcVisitList hdr es m1
end

/-- TerminationChecker::check on a Behavior discourse: clear the map and
visit the body. -/
def TerminationChecker.check (hdr : BehaviorHeader) (body : Expression) :
    Except OnuError Unit :=
  match tcVisit hdr body [] with
  | .error err => .error err
  | .ok _ => .ok ()

mutual
/-- Whether some behavior-call node anywhere in the expression carries the
given callee name. -/
def containsCallTo (n : String) : Expression → Bool
  | .behaviorCall name args => name = n || containsCallToList n args
  | .derivation _ _ value body => containsCallTo n value || containsCallTo n body
  | .ifE c t e => containsCallTo n c || containsCallTo n t || containsCallTo n e
  | .block es => containsCallToList n es
  | .tuple es => containsCallToList n es
  | .array es => containsCallToList n es
  | .matrix _ _ data => containsCallToList n data
  | .emit e => containsCallTo n e
  | .broadcasts e => containsCallTo n e
  | .actsAs subject _ => containsCallTo n subject
  | _ => false

def containsCallToList (n : String) : List Expression → Bool
  | [] => false
  | e :: es => containsCallTo n e || containsCallToList n es
end

mutual
/-- Whether some derivation node anywhere in the expression binds the given
name. -/
def bindsName (k : String) : Expression → Bool
  | .derivation name _ value body => name = k || bindsName k value || bindsName k body
  | .behaviorCall _ args => bindsNameList k args
  | .ifE c t e => bindsName k c || bindsName k t || bindsName k e
  | .block es => bindsNameList k es
  | .tuple es => bindsNameList k es
  | .array es => bindsNameList k es
  | .matrix _ _ data => bindsNameList k data
  | .emit e => bindsName k e
  | .broadcasts e => bindsName k e
  | .actsAs subject _ => bindsName k subject
  | _ => false

def bindsNameList (k : String) : List Expression → Bool
  | [] => false
  | e :: es => bindsName k e || bindsNameList k es
end

mutual
/-- An expression free of calls to the current behavior passes the
TerminationChecker from any state, and the keys it adds to smaller_vars
are exactly names of derivations it contains, so lookups of other keys are
preserved. -/
theorem tcVisit_ok_of_no_call (hdr : BehaviorHeader) :
    (e : Expression) → (m : List (String × String)) →
    containsCallTo hdr.name e = false →
    ∃ m2, tcVisit hdr e m = .ok m2
      ∧ ∀ k, bindsName k e = false → alookup m2 k = alookup m k
  | .derivation name ti value body, m, h => by
      simp only [containsCallTo, Bool.or_eq_false_iff] at h
      obtain ⟨mv, hv, hvp⟩ := tcVisit_ok_of_no_call hdr value (letInsert name value m) h.1
      obtain ⟨mb, hb, hbp⟩ := tcVisit_ok_of_no_call hdr body mv h.2
      refine ⟨mb, ?_, ?_⟩
      · simp only [tcVisit, hv, hb]
      · intro k hk
        simp only [bindsName, Bool.or_eq_false_iff] at hk
        rw [hbp k hk.2, hvp k hk.1.2, alookup_letInsert name value m k (by simpa using hk.1.1)]
  | .behaviorCall name args, m, h => by
      simp only [containsCallTo, Bool.or_eq_false_iff] at h
      obtain ⟨m2, hl, hlp⟩ := tcVisitList_ok_of_no_call hdr args m h.2
      have hne : ¬ (name = hdr.name) := by simpa using h.1
      refine ⟨m2, ?_, ?_⟩
      · simp only [tcVisit, if_neg hne, hl]
      · intro k hk
        exact hlp k (by simpa [bindsName] using hk)
  | .ifE c t e, m, h => by
      simp only [containsCallTo, Bool.or_eq_false_iff] at h
      obtain ⟨m1, h1, h1p⟩ := tcVisit_ok_of_no_call hdr c m h.1.1
      obtain ⟨m2, h2, h2p⟩ := tcVisit_ok_of_no_call hdr t m1 h.1.2
      obtain ⟨m3, h3, h3p⟩ := tcVisit_ok_of_no_call hdr e m2 h.2
      refine ⟨m3, ?_, ?_⟩
      · simp only [tcVisit, h1, h2, h3]
      · intro k hk
        simp only [bindsName, Bool.or_eq_false_iff] at hk
        rw [h3p k hk.2, h2p k hk.1.2, h1p k hk.1.1]
  | .block es, m, h => by
      obtain ⟨m2, hl, hlp⟩ := tcVisitList_ok_of_no_call hdr es m (by simpa [containsCallTo] using h)
      exact ⟨m2, hl, fun k hk => hlp k (by simpa [bindsName] using hk)⟩
  | .tuple es, m, h => by
      obtain ⟨m2, hl, hlp⟩ := tcVisitList_ok_of_no_call hdr es m (by simpa [containsCallTo] using h)
      exact ⟨m2, hl, fun k hk => hlp k (by simpa [bindsName] using hk)⟩
  | .array es, m, h => by
      obtain ⟨m2, hl, hlp⟩ := tcVisitList_ok_of_no_call hdr es m (by simpa [containsCallTo] using h)
      exact ⟨m2, hl, fun k hk => hlp k (by simpa [bindsName] using hk)⟩
  | .matrix rows cols data, m, h => by
      obtain ⟨m2, hl, hlp⟩ := tcVisitList_ok_of_no_call hdr data m (by simpa [containsCallTo] using h)
      exact ⟨m2, hl, fun k hk => hlp k (by simpa [bindsName] using hk)⟩
  | .emit e, m, h => by
      obtain ⟨m2, he, hep⟩ := tcVisit_ok_of_no_call hdr e m (by simpa [containsCallTo] using h)
      exact ⟨m2, he, fun k hk => hep k (by simpa [bindsName] using hk)⟩
  | .broadcasts e, m, h => by
      obtain ⟨m2, he, hep⟩ := tcVisit_ok_of_no_call hdr e m (by simpa [containsCallTo] using h)
      exact ⟨m2, he, fun k hk => hep k (by simpa [bindsName] using hk)⟩
  | .actsAs subject sh, m, h => by
      obtain ⟨m2, he, hep⟩ := tcVisit_ok_of_no_call hdr subject m (by simpa [containsCallTo] using h)
      exact ⟨m2, he, fun k hk => hep k (by simpa [bindsName] using hk)⟩
  | .i8 n, m, _ => ⟨m, rfl, fun _ _ => rfl⟩
  | .i16 n, m, _ => ⟨m, rfl, fun _ _ => rfl⟩
  | .i32 n, m, _ => ⟨m, rfl, fun _ _ => rfl⟩
  | .i64 n, m, _ => ⟨m, rfl, fun _ _ => rfl⟩
  | .i128 n, m, _ => ⟨m, rfl, fun _ _ => rfl⟩
  | .u8 n, m, _ => ⟨m, rfl, fun _ _ => rfl⟩
  | .u16 n, m, _ => ⟨m, rfl, fun _ _ => rfl⟩
  | .u32 n, m, _ => ⟨m, rfl, fun _ _ => rfl⟩
  | .u64 n, m, _ => ⟨m, rfl, fun _ _ => rfl⟩
  | .u128 n, m, _ => ⟨m, rfl, fun _ _ => rfl⟩
  | .f32 b, m, _ => ⟨m, rfl, fun _ _ => rfl⟩
  | .f64 b, m, _ => ⟨m, rfl, fun _ _ => rfl⟩
  | .boolean b, m, _ => ⟨m, rfl, fun _ _ => rfl⟩
  | .text s, m, _ => ⟨m, rfl, fun _ _ => rfl⟩
  | .identifier s, m, _ => ⟨m, rfl, fun _ _ => rfl⟩
  | .nothing, m, _ => ⟨m, rfl, fun _ _ => rfl⟩

theorem tcVisitList_ok_of_no_call (hdr : BehaviorHeader) :
    (es : List Expression) → (m : List (String × String)) →
    containsCallToList hdr.name es = false →
    ∃ m2, tcVisitList hdr es m = .ok m2
      ∧ ∀ k, bindsNameList k es = false → alookup m2 k = alookup m k
  | [], m, _ => ⟨m, rfl, fun _ _ => rfl⟩
  | e :: es, m, h => by
      simp only [containsCallToList, Bool.or_eq_false_iff] at h
      obtain ⟨m1, h1, h1p⟩ := tcVisit_ok_of_no_call hdr e m h.1
      obtain ⟨m2, h2, h2p⟩ := tcVisitList_ok_of_no_call hdr es m1 h.2
      refine ⟨m2, ?_, ?_⟩
      · simp only [tcVisitList, h1, h2]
      · intro k hk
        simp only [bindsNameList, Bool.or_eq_false_iff] at hk
        rw [h2p k hk.2, h1p k hk.1]
end

/-- The header of the counterexample behavior for claim C2: a pure behavior
f over an integer, diminishing clause naming n, no waiver. -/
def c2Header : BehaviorHeader :=
  ⟨"f", false, "", [], .i64, some "n", false⟩

/-- The counterexample body: derive next as n decreased-by 0, then call f
with next.  The decrement literal 0 is not positive, so the claim as
stated predicts a Termination Error. -/
def c2Body : Expression :=
  .derivation "next" none (.behaviorCall "decreased-by" [.identifier "n", .i64 0])
    (.behaviorCall "f" [.identifier "next"])

/-- Claim C2, counterexample: the checker accepts the behavior although the
recursive argument is derived by decreased-by 0, which is not a positive
literal, refuting the only-if direction of the claim. -/
theorem termination_accepts_zero_decrement :
    TerminationChecker.check c2Header c2Body = .ok () := rfl

/-- Claim C2 as amended.  The checker never inspects the decrement operand:
a recursive behavior with a diminishing clause naming X is accepted
whenever every recursive call passes a variable derived by one single
decreased-by step from X, for an arbitrary decrement expression e (first
conjunct, where e ranges over all expressions containing no further
recursive call and not rebinding the derived name).  Conversely the check
is not transitive: a two-step chain of decreased-by derivations is
rejected (second conjunct), and a recursive call without a diminishing
clause in the header is rejected (third conjunct). -/
theorem termination_check_single_step :
    (∀ (f X : String) (e : Expression),
        f ≠ "decreased-by" →
        containsCallTo f e = false →
        bindsName "next" e = false →
        TerminationChecker.check ⟨f, false, "", [], .i64, some X, false⟩
          (.derivation "next" none (.behaviorCall "decreased-by" [.identifier X, e])
            (.behaviorCall f [.identifier "next"])) = .ok ())
    ∧ TerminationChecker.check ⟨"f", false, "", [], .i64, some "n", false⟩
        (.derivation "a" none (.behaviorCall "decreased-by" [.identifier "n", .i64 1])
          (.derivation "b" none (.behaviorCall "decreased-by" [.identifier "a", .i64 1])
            (.behaviorCall "f" [.identifier "b"])))
        = .error (.parseError
            "Termination Error: recursive call must pass an argument strictly smaller than the diminishing input")
    ∧ TerminationChecker.check ⟨"f", false, "", [], .i64, none, false⟩
        (.behaviorCall "f" [.identifier "n"])
        = .error (.parseError
            "Termination Error: recursive call requires a with-diminishing clause in the behavior header") := by
  refine ⟨?_, rfl, rfl⟩
  intro f X e hf hce hbind
  have hne : ¬ ("decreased-by" = f) := fun hcon => hf hcon.symm
  obtain ⟨m2, he, hep⟩ :=
    tcVisit_ok_of_no_call ⟨f, false, "", [], .i64, some X, false⟩ e [("next", X)] hce
  have hlook : alookup m2 "next" = some X := by
    rw [hep "next" hbind]
    rfl
  have hval :
      tcVisit ⟨f, false, "", [], .i64, some X, false⟩
        (.behaviorCall "decreased-by" [.identifier X, e]) [("next", X)] = .ok m2 := by
    simp only [tcVisit, if_neg hne, tcVisitList, he]
  have hbody :
      tcVisit ⟨f, false, "", [], .i64, some X, false⟩
        (.behaviorCall f [.identifier "next"]) m2 = .ok m2 := by
    simp only [tcVisit, if_pos rfl, List.head?, hlook, decide_eq_true_eq, tcVisitList]
    simp
  have hstep : tcVisit ⟨f, false, "", [], .i64, some X, false⟩
      (.derivation "next" none (.behaviorCall "decreased-by" [.identifier X, e])
        (.behaviorCall f [.identifier "next"])) [] = .ok m2 := by
    show (match tcVisit ⟨f, false, "", [], .i64, some X, false⟩
            (.behaviorCall "decreased-by" [.identifier X, e]) [("next", X)] with
          | Except.error err => Except.error err
          | Except.ok m2 => tcVisit ⟨f, false, "", [], .i64, some X, false⟩
              (.behaviorCall f [.identifier "next"]) m2) = .ok m2
    rw [hval]
    exact hbody
  show (match tcVisit ⟨f, false, "", [], .i64, some X, false⟩
          (.derivation "next" none (.behaviorCall "decreased-by" [.identifier X, e])
            (.behaviorCall f [.identifier "next"])) [] with
        | Except.error err => Except.error err
        | Except.ok _ => Except.ok ()) = .ok ()
  rw [hstep]

/-- Witness for the amended C2 with a decrement that is not a literal at
all: the behavior g diminishing on n, deriving next as n decreased-by m
for a plain identifier m, is accepted. -/
theorem termination_check_single_step_witness :
    TerminationChecker.check ⟨"g", false, "", [], .i64, some "n", false⟩
      (.derivation "next" none
        (.behaviorCall "decreased-by" [.identifier "n", .identifier "m"])
        (.behaviorCall "g" [.identifier "next"])) = .ok () :=
  termination_check_single_step.1 "g" "n" (.identifier "m")
    (by decide) rfl rfl

/-! HIR data model from src/hir.rs and the Monomorphizer from
src/monomorphize.rs. -/

/-- HirLiteral from src/hir.rs; the f64 payload is its bit pattern. -/
inductive HirLiteral where
  | i64 (n : Int)
  | f64 (bits : Nat)
  | boolean (b : Bool)
  | text (s : String)
  | nothing

/-- HirExpression from src/hir.rs. -/
inductive HirExpression where
  | literal (lit : HirLiteral)
  | variable (name : String)
  | call (name : String) (args : List HirExpression)
  | derivation (name : String) (typ : OnuType)
      (value : HirExpression) (body : HirExpression)
  | ifE (condition : HirExpression) (then_branch : HirExpression)
      (else_branch : HirExpression)
  | actsAs (subject : HirExpression) (shape : String)
  | tuple (elems : List HirExpression)
  | index (subject : HirExpression) (idx : Nat)
  | block (elems : List HirExpression)
  | emit (e : HirExpression)

/-- HirArgument from src/hir.rs. -/
structure HirArgument where
  name : String
  typ : OnuType

/-- HirBehaviorHeader from src/hir.rs. -/
structure HirBehaviorHeader where
  name : String
  is_effect : Bool
  args : List HirArgument
  return_type : OnuType

/-- HirDiscourse from src/hir.rs. -/
inductive HirDiscourse where
  | module (name concern : String)
  | shape (name : String) (behaviors : List HirBehaviorHeader)
  | behavior (header : HirBehaviorHeader) (body : HirExpression)

/-- The entry-or-insert-then-push update of the Monomorphizer type_map:
append the type to the entry of the key, creating the entry if absent.
HashMap iteration order is unspecified in Rust; the association list fixes
one order, which no proved statement depends on. -/
def pushEntry : List (String × List OnuType) → String → OnuType →
    List (String × List OnuType)
  | [], k, t => [(k, [t])]
  | (k1, ts) :: rest, k, t =>
      if k1 = k then (k1, ts ++ [t]) :: rest else (k1, ts) :: pushEntry rest k t

/-- The wrapped-call record of Monomorphizer::visit_expression, lines 33
to 41: a caller named receiving or utilizing whose first argument is the
variable get-size and whose second argument is an acts-as node records
(get-size, F64). -/
def wrapInsert (name : String) (args : List HirExpression)
    (tm : List (String × List OnuType)) : List (String × List OnuType) :=
  if name = "receiving" ∨ name = "utilizing" then
    match args.head? with
    | some (.variable vname) =>
        if vname = "get-size" then
          match args.get? 1 with
          | some (.actsAs _ _) => pushEntry tm vname .f64
          | _ => tm
        else tm
    | _ => tm
  else tm

/-- The direct-call record of lines 43 to 49: a call named get-size
records (get-size, F64) once per acts-as argument. -/
def directInsert (name : String) (args : List HirExpression)
    (tm : List (String × List OnuType)) : List (String × List OnuType) :=
  if name = "get-size" then
    args.foldl (fun acc arg =>
      match arg with
      | .actsAs _ _ => pushEntry acc name .f64
      | _ => acc) tm
  else tm

/-- The per-argument record of the third loop, lines 51 to 58: the same
get-size condition once more, so a direct hit is recorded twice. -/
def argInsert (name : String) (arg : HirExpression)
    (tm : List (String × List OnuType)) : List (String × List OnuType) :=
  match arg with
  | .actsAs _ _ => if name = "get-size" then pushEntry tm name .f64 else tm
  | _ => tm

mutual
/-- Monomorphizer::visit_expression, src/monomorphize.rs lines 30 to 82:
the specialization-site scan.  Only the hardcoded callee name get-size is
recognized, always at the concrete type F64; Tuple and Index children fall
into the final catch-all arm and are not scanned. -/
def monoVisit : HirExpression → List (String × List OnuType) →
    List (String × List OnuType)
  | .call name args, tm =>
      monoVisitArgs name args (directInsert name args (wrapInsert name args tm))
  | .derivation _ _ value body, tm => monoVisit body (monoVisit value tm)
  | .ifE c t e, tm => monoVisit e (monoVisit t (monoVisit c tm))
  | .actsAs subject _, tm => monoVisit subject tm
  | .block es, tm => monoVisitList es tm
  | .emit e, tm => monoVisit e tm
  | _, tm => tm

/-- The third loop of the Call arm: re-record each acts-as argument of a
get-size call, then recurse into the argument. -/
def monoVisitArgs (name : String) :
    List HirExpression → List (String × List OnuType) →
    List (String × List OnuType)
  | [], tm => tm
  | arg :: rest, tm => monoVisitArgs name rest (monoVisit arg (argInsert name arg tm))

/-- Element scan of a Block. -/
def monoVisitList : List HirExpression → List (String × List OnuType) →
    List (String × List OnuType)
  | [], tm => tm
  | e :: es, tm => monoVisitList es (monoVisit e tm)
end

/-- Monomorphizer::identify_specializations: scan every behavior body. -/
def identify_specializations (hir : List HirDiscourse) :
    List (String × List OnuType) :=
  hir.foldl (fun tm d =>
    match d with
    | .behavior _ body => monoVisit body tm
    | _ => tm) []

/-- The type-suffix table of apply_specializations. -/
def typeSuffix : OnuType → String
  | .f64 => "float"
  | .i64 => "integer"
  | _ => "unknown"

mutual
/-- Monomorphizer::rewrite_call_sites, src/monomorphize.rs lines 142 to
186.  The receiving/utilizes-wrapped form renames the callee variable and
replaces an acts-as second argument by its raw subject (the source unwraps
args.get(1) and would panic on a one-element argument list; the model
renames the callee variable and carries on); a call whose own name is the
old name is renamed but its arguments are left as they are; then the
source recurses into the mutated arguments.  The model splits the Call
case by the shape of the argument list and recurses into the original
subterms, which is the same function because rewriting the freshly
substituted callee variable is the identity. -/
def rewrite_call_sites (old_name new_name : String) : HirExpression → HirExpression
  | .call name (.variable vn :: .actsAs subject sh :: rest2) =>
      let name1 := if name = old_name then new_name else name
      if (name = "receiving" ∨ name = "utilizes") ∧ vn = old_name then
        .call name1 (.variable new_name ::
          rewrite_call_sites old_name new_name subject ::
          rewriteList old_name new_name rest2)
      else
        .call name1 (.variable vn ::
          .actsAs (rewrite_call_sites old_name new_name subject) sh ::
          rewriteList old_name new_name rest2)
  | .call name (.variable vn :: rest) =>
      let name1 := if name = old_name then new_name else name
      if (name = "receiving" ∨ name = "utilizes") ∧ vn = old_name then
        .call name1 (.variable new_name :: rewriteList old_name new_name rest)
      else
        .call name1 (.variable vn :: rewriteList old_name new_name rest)
  | .call name args =>
      let name1 := if name = old_name then new_name else name
      .call name1 (rewriteList old_name new_name args)
  | .derivation name typ value body =>
      .derivation name typ (rewrite_call_sites old_name new_name value)
        (rewrite_call_sites old_name new_name body)
  | .ifE c t e =>
      .ifE (rewrite_call_sites old_name new_name c)
        (rewrite_call_sites old_name new_name t)
        (rewrite_call_sites old_name new_name e)
  | .actsAs subject sh => .actsAs (rewrite_call_sites old_name new_name subject) sh
  | .block es => .block (rewriteList old_name new_name es)
  | .emit e => .emit (rewrite_call_sites old_name new_name e)
  | e => e

def rewriteList (old_name new_name : String) : List HirExpression → List HirExpression
  | [] => []
  | e :: es => rewrite_call_sites old_name new_name e :: rewriteList old_name new_name es
end

/-- The specialized-copy emission of apply_specializations: for each
behavior with a type_map entry, one clone per recorded type, renamed with
the type suffix, shape-typed parameters replaced by the concrete type.
rewrite_expression of the source is an empty stub, so bodies are cloned
verbatim. -/
def specializedCopies (tm : List (String × List OnuType))
    (hir : List HirDiscourse) : List HirDiscourse :=
  hir.foldl (fun acc d =>
    match d with
    | .behavior header body =>
        match alookup tm header.name with
        | some concrete_types =>
            acc ++ concrete_types.map (fun typ =>
              HirDiscourse.behavior
                { header with
                    name := header.name ++ "_" ++ typeSuffix typ
                    args := header.args.map (fun arg =>
                      match arg.typ with
                      | .shape _ => { arg with typ := typ }
                      | _ => arg) }
                body)
        | none => acc
    | _ => acc) []

/-- The call-site rewrite loop of apply_specializations: every original
behavior body is rewritten once per (name, type) pair of the type map. -/
def rewriteAll (tm : List (String × List OnuType)) (body : HirExpression) :
    HirExpression :=
  tm.foldl (fun b p =>
    p.2.foldl (fun b2 typ =>
      rewrite_call_sites p.1 (p.1 ++ "_" ++ typeSuffix typ) b2) b) body

/-- Monomorphizer::run, src/monomorphize.rs lines 16 to 20 together with
apply_specializations lines 84 to 135: scan, emit specialized copies,
rewrite original call sites, extend. -/
def Monomorphizer.run (hir : List HirDiscourse) : List HirDiscourse :=
  let tm := identify_specializations hir
  let rewritten := hir.map (fun d =>
    match d with
    | .behavior header body => HirDiscourse.behavior header (rewriteAll tm body)
    | other => other)
  rewritten ++ specializedCopies tm hir

mutual
/-- Whether an acts-as node survives anywhere in a HIR expression. -/
def hirContainsActsAs : HirExpression → Bool
  | .actsAs _ _ => true
  | .call _ args => hirContainsActsAsList args
  | .derivation _ _ value body => hirContainsActsAs value || hirContainsActsAs body
  | .ifE c t e => hirContainsActsAs c || hirContainsActsAs t || hirContainsActsAs e
  | .tuple es => hirContainsActsAsList es
  | .index subject _ => hirContainsActsAs subject
  | .block es => hirContainsActsAsList es
  | .emit e => hirContainsActsAs e
  | _ => false

def hirContainsActsAsList : List HirExpression → Bool
  | [] => false
  | e :: es => hirContainsActsAs e || hirContainsActsAsList es
end

/-- Whether an acts-as node survives in some behavior body of a HIR list. -/
def hirListContainsActsAs (hir : List HirDiscourse) : Bool :=
  hir.any (fun d =>
    match d with
    | .behavior _ body => hirContainsActsAs body
    | _ => false)

/-- The counterexample input for claim C3: a single behavior main whose
body calls foo with an acts-as argument.  foo is not the hardcoded name
get-size, so the monomorphizer records nothing and rewrites nothing. -/
def c3Hir : List HirDiscourse :=
  [.behavior ⟨"main", true, [], .nothing⟩
    (.call "foo" [.actsAs (.variable "x") "Measurable"])]

/-- Claim C3, counterexample: after Monomorphizer::run an acts-as node
remains in the HIR. -/
theorem monomorphize_leaves_acts_as :
    hirListContainsActsAs (Monomorphizer.run c3Hir) = true := rfl


/-- Whether the first argument of a call is the variable get-size, the
trigger of the wrapped-call scan. -/
def headIsGetSize (args : List HirExpression) : Bool :=
  match args.head? with
  | some (.variable v) => v = "get-size"
  | _ => false

mutual
/-- Whether any call node of the expression can trigger the monomorphizer:
a callee named get-size, or a receiving/utilizing wrapper whose first
argument is the variable get-size. -/
def mentionsGetSize : HirExpression → Bool
  | .call name args =>
      ((name = "receiving" || name = "utilizing") && headIsGetSize args)
      || name = "get-size"
      || mentionsGetSizeList args
  | .derivation _ _ value body => mentionsGetSize value || mentionsGetSize body
  | .ifE c t e => mentionsGetSize c || mentionsGetSize t || mentionsGetSize e
  | .actsAs subject _ => mentionsGetSize subject
  | .tuple es => mentionsGetSizeList es
  | .index subject _ => mentionsGetSize subject
  | .block es => mentionsGetSizeList es
  | .emit e => mentionsGetSize e
  | _ => false

def mentionsGetSizeList : List HirExpression → Bool
  | [] => false
  | e :: es => mentionsGetSize e || mentionsGetSizeList es
end

theorem wrapInsert_id (name : String) (args : List HirExpression)
    (tm : List (String × List OnuType))
    (h : ((name = "receiving" || name = "utilizing") && headIsGetSize args) = false) :
    wrapInsert name args tm = tm := by
  unfold wrapInsert
  rcases Bool.and_eq_false_iff.mp h with h1 | h1
  · rw [if_neg]
    intro hcon
    rcases hcon with hcon | hcon <;> simp [hcon] at h1
  · split
    · split
      · next vname hh =>
        rw [if_neg]
        intro hcon
        unfold headIsGetSize at h1
        rw [hh] at h1
        simp [hcon] at h1
      · rfl
    · rfl

theorem directInsert_id (name : String) (args : List HirExpression)
    (tm : List (String × List OnuType)) (h : ¬ (name = "get-size")) :
    directInsert name args tm = tm := by
  unfold directInsert
  exact if_neg h

theorem argInsert_id (name : String) (arg : HirExpression)
    (tm : List (String × List OnuType)) (h : ¬ (name = "get-size")) :
    argInsert name arg tm = tm := by
  unfold argInsert
  split
  · exact if_neg h
  · rfl

mutual
/-- The specialization scan records nothing on an expression that never
mentions get-size. -/
theorem monoVisit_id : (e : HirExpression) → (tm : List (String × List OnuType)) →
    mentionsGetSize e = false → monoVisit e tm = tm
  | .call name args, tm, h => by
      simp only [mentionsGetSize, Bool.or_eq_false_iff] at h
      obtain ⟨⟨hwrap, hname⟩, hlist⟩ := h
      have hname2 : ¬ (name = "get-size") := by simpa using hname
      show monoVisitArgs name args (directInsert name args (wrapInsert name args tm)) = tm
      rw [wrapInsert_id name args tm hwrap, directInsert_id name args tm hname2]
      exact monoVisitArgs_id name args tm hname2 hlist
  | .derivation name typ value body, tm, h => by
      simp only [mentionsGetSize, Bool.or_eq_false_iff] at h
      show monoVisit body (monoVisit value tm) = tm
      rw [monoVisit_id value tm h.1]
      exact monoVisit_id body tm h.2
  | .ifE c t e, tm, h => by
      simp only [mentionsGetSize, Bool.or_eq_false_iff] at h
      show monoVisit e (monoVisit t (monoVisit c tm)) = tm
      rw [monoVisit_id c tm h.1.1, monoVisit_id t tm h.1.2]
      exact monoVisit_id e tm h.2
  | .actsAs subject sh, tm, h => by
      show monoVisit subject tm = tm
      exact monoVisit_id subject tm (by simpa [mentionsGetSize] using h)
  | .block es, tm, h => by
      show monoVisitList es tm = tm
      exact monoVisitList_id es tm (by simpa [mentionsGetSize] using h)
  | .emit e, tm, h => by
      show monoVisit e tm = tm
      exact monoVisit_id e tm (by simpa [mentionsGetSize] using h)
  | .literal l, tm, _ => rfl
  | .variable v, tm, _ => rfl
  | .tuple es, tm, _ => rfl
  | .index subject i, tm, _ => rfl

/-- The third loop of the Call arm records nothing when the callee is not
get-size and the arguments never mention it. -/
theorem monoVisitArgs_id (name : String) :
    (args : List HirExpression) → (tm : List (String × List OnuType)) →
    ¬ (name = "get-size") → mentionsGetSizeList args = false →
    monoVisitArgs name args tm = tm
  | [], tm, _, _ => rfl
  | arg :: rest, tm, hname, h => by
      simp only [mentionsGetSizeList, Bool.or_eq_false_iff] at h
      show monoVisitArgs name rest (monoVisit arg (argInsert name arg tm)) = tm
      rw [argInsert_id name arg tm hname, monoVisit_id arg tm h.1]
      exact monoVisitArgs_id name rest tm hname h.2

theorem monoVisitList_id : (es : List HirExpression) →
    (tm : List (String × List OnuType)) →
    mentionsGetSizeList es = false → monoVisitList es tm = tm
  | [], tm, _ => rfl
  | e :: es, tm, h => by
      simp only [mentionsGetSizeList, Bool.or_eq_false_iff] at h
      show monoVisitList es (monoVisit e tm) = tm
      rw [monoVisit_id e tm h.1]
      exact monoVisitList_id es tm h.2
end

/-- Whether a discourse can trigger the monomorphizer. -/
def discourseMentionsGetSize : HirDiscourse → Bool
  | .behavior _ body => mentionsGetSize body
  | _ => false

theorem identify_specializations_nil :
    (hir : List HirDiscourse) →
    (∀ d ∈ hir, discourseMentionsGetSize d = false) →
    identify_specializations hir = []
  | hir, h => by
    have main : ∀ (l : List HirDiscourse), (∀ d ∈ l, discourseMentionsGetSize d = false) →
        l.foldl (fun tm d =>
          match d with
          | .behavior _ body => monoVisit body tm
          | _ => tm) [] = [] := by
      intro l
      induction l with
      | nil => intro _; rfl
      | cons d rest ih =>
          intro hl
          have hd := hl d (List.mem_cons_self d rest)
          have hrest := fun x hx => hl x (List.mem_cons_of_mem d hx)
          simp only [List.foldl_cons]
          have hstep : (match d with
              | HirDiscourse.behavior _ body => monoVisit body []
              | _ => ([] : List (String × List OnuType))) = [] := by
            cases d with
            | behavior header body =>
                exact monoVisit_id body [] (by simpa [discourseMentionsGetSize] using hd)
            | module n c => rfl
            | shape n b => rfl
          rw [hstep]
          exact ih hrest
    exact main hir h

/-- Claim C3 as amended.  The monomorphizer is hardcoded to the callee name
get-size, always specialized at F64 with the float suffix, and only the
receiving/utilizes-wrapped call form has its acts-as wrapper stripped.  On
any HIR list whose behavior bodies never mention get-size, run is the
identity, so every acts-as node of such a list survives monomorphization
unchanged (the counterexample instantiates this at a direct call of foo
with an acts-as argument). -/
theorem monomorphize_run_id (hir : List HirDiscourse)
    (h : ∀ d ∈ hir, discourseMentionsGetSize d = false) :
    Monomorphizer.run hir = hir := by
  unfold Monomorphizer.run
  rw [identify_specializations_nil hir h]
  have hcopies : specializedCopies [] hir = [] := by
    unfold specializedCopies
    have main : ∀ (l : List HirDiscourse) (acc : List HirDiscourse),
        l.foldl (fun acc d =>
          match d with
          | HirDiscourse.behavior header body =>
              match alookup ([] : List (String × List OnuType)) header.name with
              | some concrete_types =>
                  acc ++ concrete_types.map (fun typ =>
                    HirDiscourse.behavior
                      { header with
                          name := header.name ++ "_" ++ typeSuffix typ
                          args := header.args.map (fun arg =>
                            match arg.typ with
                            | .shape _ => { arg with typ := typ }
                            | _ => arg) }
                      body)
              | none => acc
          | _ => acc) acc = acc := by
      intro l
      induction l with
      | nil => intro acc; rfl
      | cons d rest ih =>
          intro acc
          simp only [List.foldl_cons]
          have hstep : (match d with
              | HirDiscourse.behavior header body =>
                  match alookup ([] : List (String × List OnuType)) header.name with
                  | some concrete_types =>
                      acc ++ concrete_types.map (fun typ =>
                        HirDiscourse.behavior
                          { header with
                              name := header.name ++ "_" ++ typeSuffix typ
                              args := header.args.map (fun arg =>
                                match arg.typ with
                                | .shape _ => { arg with typ := typ }
                                | _ => arg) }
                          body)
                  | none => acc
              | _ => acc) = acc := by
            cases d <;> rfl
          rw [hstep]
          exact ih acc
    exact main hir []
  have hmap : hir.map (fun d =>
      match d with
      | HirDiscourse.behavior header body =>
          HirDiscourse.behavior header (rewriteAll [] body)
      | other => other) = hir := by
    have : ∀ d : HirDiscourse, (match d with
        | HirDiscourse.behavior header body =>
            HirDiscourse.behavior header (rewriteAll [] body)
        | other => other) = d := by
      intro d
      cases d <;> rfl
    clear h hcopies
    induction hir with
    | nil => rfl
    | cons d rest ih => rw [List.map_cons, this d, ih]
  show (hir.map (fun d =>
      match d with
      | HirDiscourse.behavior header body =>
          HirDiscourse.behavior header (rewriteAll [] body)
      | other => other)) ++ specializedCopies [] hir = hir
  rw [hcopies, hmap, List.append_nil]

/-- Witness for the amended C3: a HIR list holding one behavior whose body
is an acts-as node inside a bar call is returned unchanged by run, acts-as
included. -/
theorem monomorphize_run_id_witness :
    Monomorphizer.run
      [.behavior ⟨"main", true, [], .nothing⟩
        (.call "bar" [.actsAs (.variable "y") "Addable"])]
      = [.behavior ⟨"main", true, [], .nothing⟩
          (.call "bar" [.actsAs (.variable "y") "Addable"])] :=
  monomorphize_run_id _ (by
    intro d hd
    simp only [List.mem_singleton] at hd
    subst hd
    rfl)

/-! The MIR data model and MirBuilder of src/mir.rs. -/

/-- MirBinOp from src/mir.rs. -/
inductive MirBinOp where
  | add | sub | mul | div | eq | gt | lt

/-- MirLiteral from src/mir.rs; the f64 payload is its bit pattern. -/
inductive MirLiteral where
  | i64 (n : Int)
  | f64 (bits : Nat)
  | boolean (b : Bool)
  | text (s : String)
  | nothing

/-- MirOperand from src/mir.rs; SSA identifiers are usize, modelled Nat. -/
inductive MirOperand where
  | constant (lit : MirLiteral)
  | variable (ssa : Nat)

/-- MirInstruction from src/mir.rs. -/
inductive MirInstruction where
  | assign (dest : Nat) (src : MirOperand)
  | binaryOperation (dest : Nat) (op : MirBinOp) (lhs rhs : MirOperand)
  | call (dest : Nat) (name : String) (args : List MirOperand)
  | tuple (dest : Nat) (elements : List MirOperand)
  | index (dest : Nat) (subject : MirOperand) (idx : Nat)
  | emit (op : MirOperand)

/-- MirTerminator from src/mir.rs. -/
inductive MirTerminator where
  | ret (op : MirOperand)
  | branch (block : Nat)
  | condBranch (condition : MirOperand) (then_block else_block : Nat)
  | unreachable

/-- BasicBlock from src/mir.rs. -/
structure BasicBlock where
  id : Nat
  instructions : List MirInstruction
  terminator : MirTerminator

/-- MirArgument from src/mir.rs. -/
structure MirArgument where
  name : String
  typ : OnuType
  ssa_var : Nat

/-- MirFunction from src/mir.rs. -/
structure MirFunction where
  name : String
  args : List MirArgument
  return_type : OnuType
  blocks : List BasicBlock

/-- MirProgram from src/mir.rs. -/
structure MirProgram where
  functions : List MirFunction

/-- The mutable builder state of MirBuilder::build_expression: the two
fresh-id counters and the name map of the struct, plus the two by-reference
parameters of the method, the block under construction and the list of
blocks pushed so far. -/
structure BState where
  next_ssa_var : Nat
  next_block_id : Nat
  var_map : List (String × Nat)
  cur : BasicBlock
  blocks : List BasicBlock

/-- MirBuilder::new_ssa_var, src/mir.rs lines 84 to 88. -/
def newSsaVar (s : BState) : Nat × BState :=
  (s.next_ssa_var, { s with next_ssa_var := s.next_ssa_var + 1 })

/-- MirBuilder::new_block_id, src/mir.rs lines 90 to 94. -/
def newBlockId (s : BState) : Nat × BState :=
  (s.next_block_id, { s with next_block_id := s.next_block_id + 1 })

/-- Appending one instruction to the block under construction. -/
def pushInstr (s : BState) (i : MirInstruction) : BState :=
  { s with cur := ⟨s.cur.id, s.cur.instructions ++ [i], s.cur.terminator⟩ }

/-- The std::mem::replace pattern of the If lowering: give the block under
construction its final terminator and trailing instructions, push it, and
start a fresh empty block with the given id. -/
def sealCur (s : BState) (extra : List MirInstruction) (term : MirTerminator)
    (nid : Nat) : BState :=
  { s with
      blocks := s.blocks ++ [⟨s.cur.id, s.cur.instructions ++ extra, term⟩]
      cur := ⟨nid, [], .unreachable⟩ }

/-- The fixed binary-verb table of build_expression, src/mir.rs lines 172
to 185, applicable only at argument count two. -/
def binOpOfName : String → Option MirBinOp
  | "added-to" => some .add
  | "decreased-by" => some .sub
  | "scales-by" => some .mul
  | "partitions-by" => some .div
  | "matches" => some .eq
  | "exceeds" => some .gt
  | "falls-short-of" => some .lt
  | _ => none

/-- The literal translation of build_expression. -/
def mirLitOf : HirLiteral → MirLiteral
  | .i64 n => .i64 n
  | .f64 bits => .f64 bits
  | .boolean b => .boolean b
  | .text s => .text s
  | .nothing => .nothing

mutual
/-- MirBuilder::build_expression, src/mir.rs lines 151 to 264.  The source
panics on an unbound variable name; the model yields ssa id 0 there, which
no proved statement depends on. -/
def build_expression : HirExpression → BState → MirOperand × BState
  | .literal lit, s => (.constant (mirLitOf lit), s)
  | .variable name, s => (.variable ((alookup s.var_map name).getD 0), s)
  | .call name args, s =>
      let (mir_args, s1) := buildOperands args s
      let (dest, s2) := newSsaVar s1
      match mir_args, binOpOfName name with
      | [lhs, rhs], some op =>
          (.variable dest, pushInstr s2 (.binaryOperation dest op lhs rhs))
      | margs, _ => (.variable dest, pushInstr s2 (.call dest name margs))
  | .derivation name _ value body, s =>
      let (val_op, s1) := build_expression value s
      let (dest, s2) := newSsaVar s1
      let s3 := pushInstr s2 (.assign dest val_op)
      build_expression body { s3 with var_map := (name, dest) :: s3.var_map }
  | .ifE condition then_branch else_branch, s =>
      let (cond_op, s1) := build_expression condition s
      let (dest, s2) := newSsaVar s1
      let (then_id, s3) := newBlockId s2
      let (else_id, s4) := newBlockId s3
      let (merge_id, s5) := newBlockId s4
      let s6 := sealCur s5 [] (.condBranch cond_op then_id else_id) then_id
      let (then_res, s7) := build_expression then_branch s6
      let s8 := sealCur s7 [.assign dest then_res] (.branch merge_id) else_id
      let (else_res, s9) := build_expression else_branch s8
      let s10 := sealCur s9 [.assign dest else_res] (.branch merge_id) merge_id
      (.variable dest, s10)
  | .block es, s => buildBlockSeq es (.constant .nothing) s
  | .emit e, s =>
      let (op, s1) := build_expression e s
      (.constant .nothing, pushInstr s1 (.emit op))
  | .tuple es, s =>
      let (elems, s1) := buildOperands es s
      let (dest, s2) := newSsaVar s1
      (.variable dest, pushInstr s2 (.tuple dest elems))
  | .index subject i, s =>
      let (subj_op, s1) := build_expression subject s
      let (dest, s2) := newSsaVar s1
      (.variable dest, pushInstr s2 (.index dest subj_op i))
  | .actsAs subject _, s => build_expression subject s

/-- Left-to-right evaluation of an argument or element list. -/
def buildOperands : List HirExpression → BState → List MirOperand × BState
  | [], s => ([], s)
  | e :: es, s =>
      let (op, s1) := build_expression e s
      let (ops, s2) := buildOperands es s1
      (op :: ops, s2)

/-- The Block arm: value of the last element, Constant Nothing when
empty. -/
def buildBlockSeq : List HirExpression → MirOperand → BState → MirOperand × BState
  | [], last, s => (last, s)
  | e :: es, _, s =>
      let (res, s1) := build_expression e s
      buildBlockSeq es res s1
end

/-- The parameter allocation loop of build_function, src/mir.rs lines 121
to 130: one fresh ssa id per formal parameter, bound in the name map. -/
def allocArgs : List HirArgument → Nat → List (String × Nat) →
    List MirArgument × Nat × List (String × Nat)
  | [], n, vm => ([], n, vm)
  | a :: rest, n, vm =>
      let (margs, n2, vm2) := allocArgs rest (n + 1) ((a.name, n) :: vm)
      (⟨a.name, a.typ, n⟩ :: margs, n2, vm2)

/-- MirBuilder::build_function, src/mir.rs lines 117 to 149: reset the
counters and the name map, allocate the parameters, start block 0 with a
provisional Unreachable terminator, lower the body, and give the last
block a Return terminator. -/
def build_function (header : HirBehaviorHeader) (body : HirExpression) :
    MirFunction :=
  let (margs, n, vm) := allocArgs header.args 0 []
  let s0 : BState := ⟨n, 1, vm, ⟨0, [], .unreachable⟩, []⟩
  let (result_op, s1) := build_expression body s0
  ⟨header.name, margs, header.return_type,
    s1.blocks ++ [⟨s1.cur.id, s1.cur.instructions, .ret result_op⟩]⟩

/-- MirBuilder::build_program, src/mir.rs lines 96 to 105: one function per
Behavior discourse; build_function resets all builder state, so each
function builds from a fresh state. -/
def build_program (hir : List HirDiscourse) : MirProgram :=
  ⟨hir.filterMap (fun d =>
    match d with
    | .behavior header body => some (build_function header body)
    | _ => none)⟩

/-- The destination register of an instruction, when it has one. -/
def instDest : MirInstruction → Option Nat
  | .assign d _ => some d
  | .binaryOperation d _ _ _ => some d
  | .call d _ _ => some d
  | .tuple d _ => some d
  | .index d _ _ => some d
  | .emit _ => none

/-- The destinations written inside one basic block. -/
def blockDests (b : BasicBlock) : List Nat :=
  b.instructions.filterMap instDest

/-- The counterexample input for claim C4: any behavior whose body is a
bare if/then/else of literals. -/
def c4Body : HirExpression :=
  .ifE (.literal (.boolean true)) (.literal (.i64 1)) (.literal (.i64 2))

/-- Claim C4, counterexample: lowering an if/then/else makes the if-result
ssa id (here 0) the destination of two Assign instructions, one in the
then block and one in the else block, so an ssa id is the destination of
more than one instruction of the function. -/
theorem mir_if_assigns_dest_twice :
    ((build_function ⟨"main", false, [], .i64⟩ c4Body).blocks.map blockDests)
      = [[], [0], [0], []] := rfl

/-- All destinations written so far: pushed blocks plus the block under
construction. -/
def allDests (s : BState) : List Nat :=
  (s.blocks ++ [s.cur]).flatMap blockDests

/-- The builder invariant: block ids are pairwise distinct and below the
block counter, and each block writes pairwise distinct destinations, all
below the ssa counter. -/
structure StOk (s : BState) : Prop where
  ids_nodup : ((s.blocks ++ [s.cur]).map BasicBlock.id).Nodup
  ids_lt : ∀ b ∈ s.blocks ++ [s.cur], b.id < s.next_block_id
  dests_nodup : ∀ b ∈ s.blocks ++ [s.cur], (blockDests b).Nodup
  dests_lt : ∀ b ∈ s.blocks ++ [s.cur], ∀ d ∈ blockDests b, d < s.next_ssa_var

/-- What one build_expression step guarantees: the invariant is preserved,
the counters grow, pushed blocks are only appended, every appended block
is the sealed old current block or carries a fresh id, the new current
block likewise, new destinations in the current block are fresh, recorded
destinations survive, and every ssa id allocated during the step ends up
written in some block. -/
structure BuildPost (s s2 : BState) : Prop where
  ok : StOk s2
  ssa_mono : s.next_ssa_var ≤ s2.next_ssa_var
  blk_mono : s.next_block_id ≤ s2.next_block_id
  blocks_pre : ∃ tl, s2.blocks = s.blocks ++ tl
  blocks_new : ∀ b ∈ s2.blocks, b ∈ s.blocks ∨ b.id = s.cur.id ∨ s.next_block_id ≤ b.id
  cur_id : s2.cur.id = s.cur.id ∨ s.next_block_id ≤ s2.cur.id
  cur_dests : ∀ d ∈ blockDests s2.cur, d ∈ blockDests s.cur ∨ s.next_ssa_var ≤ d
  dests_mono : ∀ d ∈ allDests s, d ∈ allDests s2
  dense : ∀ k, s.next_ssa_var ≤ k → k < s2.next_ssa_var → k ∈ allDests s2

theorem BuildPost.rfl_of (s : BState) (h : StOk s) : BuildPost s s where
  ok := h
  ssa_mono := Nat.le_refl _
  blk_mono := Nat.le_refl _
  blocks_pre := ⟨[], (List.append_nil _).symm⟩
  blocks_new := fun b hb => Or.inl hb
  cur_id := Or.inl rfl
  cur_dests := fun d hd => Or.inl hd
  dests_mono := fun d hd => hd
  dense := fun k h1 h2 => absurd (Nat.lt_of_le_of_lt h1 h2) (Nat.lt_irrefl _)

theorem BuildPost.comp {s s1 s2 : BState}
    (p : BuildPost s s1) (q : BuildPost s1 s2) : BuildPost s s2 where
  ok := q.ok
  ssa_mono := Nat.le_trans p.ssa_mono q.ssa_mono
  blk_mono := Nat.le_trans p.blk_mono q.blk_mono
  blocks_pre := by
    obtain ⟨t1, h1⟩ := p.blocks_pre
    obtain ⟨t2, h2⟩ := q.blocks_pre
    exact ⟨t1 ++ t2, by rw [h2, h1, List.append_assoc]⟩
  blocks_new := by
    intro b hb
    rcases q.blocks_new b hb with hb1 | hb1 | hb1
    · exact p.blocks_new b hb1
    · rcases p.cur_id with hc | hc
      · exact Or.inr (Or.inl (hb1.trans hc))
      · exact Or.inr (Or.inr (hb1 ▸ hc))
    · exact Or.inr (Or.inr (Nat.le_trans p.blk_mono hb1))
  cur_id := by
    rcases q.cur_id with hc | hc
    · rw [hc]
      exact p.cur_id
    · exact Or.inr (Nat.le_trans p.blk_mono hc)
  cur_dests := by
    intro d hd
    rcases q.cur_dests d hd with h1 | h1
    · exact p.cur_dests d h1
    · exact Or.inr (Nat.le_trans p.ssa_mono h1)
  dests_mono := fun d hd => q.dests_mono d (p.dests_mono d hd)
  dense := by
    intro k h1 h2
    by_cases hk : k < s1.next_ssa_var
    · exact q.dests_mono k (p.dense k h1 hk)
    · exact q.dense k (Nat.le_of_not_lt hk) h2

theorem blockDests_append (id : Nat) (instrs extra : List MirInstruction)
    (term : MirTerminator) :
    blockDests ⟨id, instrs ++ extra, term⟩
      = instrs.filterMap instDest ++ extra.filterMap instDest := by
  unfold blockDests
  exact List.filterMap_append _ _ _

theorem mem_allDests_of_cur {s : BState} {d : Nat}
    (hd : d ∈ blockDests s.cur) : d ∈ allDests s := by
  unfold allDests
  refine List.mem_flatMap.mpr ⟨s.cur, ?_, hd⟩
  exact List.mem_append_right _ (List.mem_singleton.mpr rfl)

theorem mem_allDests_of_blocks {s : BState} {b : BasicBlock} {d : Nat}
    (hb : b ∈ s.blocks) (hd : d ∈ blockDests b) : d ∈ allDests s := by
  unfold allDests
  exact List.mem_flatMap.mpr ⟨b, List.mem_append_left _ hb, hd⟩

theorem allDests_elim {s : BState} {d : Nat} (h : d ∈ allDests s) :
    (∃ b ∈ s.blocks, d ∈ blockDests b) ∨ d ∈ blockDests s.cur := by
  unfold allDests at h
  obtain ⟨b, hb, hd⟩ := List.mem_flatMap.mp h
  rcases List.mem_append.mp hb with hb | hb
  · exact Or.inl ⟨b, hb, hd⟩
  · rw [List.mem_singleton.mp hb] at hd
    exact Or.inr hd

/-- Appending a fresh-destination instruction to the current block
preserves the invariant and accounts for the new ssa id. -/
theorem post_pushFresh (s : BState) (h : StOk s) (mk : Nat → MirInstruction)
    (hmk : instDest (mk s.next_ssa_var) = some s.next_ssa_var) :
    BuildPost s
      (pushInstr { s with next_ssa_var := s.next_ssa_var + 1 }
        (mk s.next_ssa_var)) := by
  set n := s.next_ssa_var with hn
  set s2 := pushInstr { s with next_ssa_var := n + 1 } (mk n) with hs2
  have hblocks : s2.blocks = s.blocks := rfl
  have hcur : s2.cur = ⟨s.cur.id, s.cur.instructions ++ [mk n], s.cur.terminator⟩ := rfl
  have hcurDests : blockDests s2.cur = blockDests s.cur ++ [n] := by
    rw [hcur, blockDests_append]
    unfold blockDests
    simp [hmk]
  have hmemn : n ∈ blockDests s2.cur := by
    rw [hcurDests]
    exact List.mem_append_right _ (List.mem_singleton.mpr rfl)
  refine ⟨?_, ?_, ?_, ?_, ?_, ?_, ?_, ?_, ?_⟩
  · refine ⟨?_, ?_, ?_, ?_⟩
    · have : (s2.blocks ++ [s2.cur]).map BasicBlock.id
          = (s.blocks ++ [s.cur]).map BasicBlock.id := by
        rw [hblocks, hcur]
        simp
      rw [this]
      exact h.ids_nodup
    · intro b hb
      rcases List.mem_append.mp hb with hb | hb
      · exact h.ids_lt b (List.mem_append_left _ hb)
      · rw [List.mem_singleton.mp hb, hcur]
        exact h.ids_lt s.cur (List.mem_append_right _ (List.mem_singleton.mpr rfl))
    · intro b hb
      rcases List.mem_append.mp hb with hb | hb
      · exact h.dests_nodup b (List.mem_append_left _ hb)
      · rw [List.mem_singleton.mp hb, hcurDests]
        refine List.nodup_append.mpr ⟨?_, List.nodup_singleton n, ?_⟩
        · exact h.dests_nodup s.cur (List.mem_append_right _ (List.mem_singleton.mpr rfl))
        · intro d hd
          have hlt := h.dests_lt s.cur
            (List.mem_append_right _ (List.mem_singleton.mpr rfl)) d hd
          simp only [List.mem_singleton]
          omega
    · intro b hb d hd
      have hns : s2.next_ssa_var = n + 1 := rfl
      rw [hns]
      rcases List.mem_append.mp hb with hb | hb
      · have := h.dests_lt b (List.mem_append_left _ hb) d hd
        omega
      · rw [List.mem_singleton.mp hb, hcurDests] at hd
        rcases List.mem_append.mp hd with hd | hd
        · have := h.dests_lt s.cur
            (List.mem_append_right _ (List.mem_singleton.mpr rfl)) d hd
          omega
        · rw [List.mem_singleton.mp hd]
          omega
  · exact Nat.le_succ n
  · exact Nat.le_refl _
  · exact ⟨[], (List.append_nil _).symm⟩
  · intro b hb
    exact Or.inl (hblocks ▸ hb)
  · exact Or.inl rfl
  · intro d hd
    rw [hcurDests] at hd
    rcases List.mem_append.mp hd with hd | hd
    · exact Or.inl hd
    · rw [List.mem_singleton.mp hd]
      exact Or.inr (Nat.le_refl _)
  · intro d hd
    rcases allDests_elim hd with ⟨b, hb, hdb⟩ | hdc
    · exact mem_allDests_of_blocks (hblocks ▸ hb) hdb
    · refine mem_allDests_of_cur ?_
      rw [hcurDests]
      exact List.mem_append_left _ hdc
  · intro k h1 h2
    have hns : s2.next_ssa_var = n + 1 := rfl
    rw [hns] at h2
    have : k = n := by omega
    rw [this]
    exact mem_allDests_of_cur hmemn

/-- Appending an Emit instruction preserves the invariant without
allocating. -/
theorem post_pushEmit (s : BState) (h : StOk s) (op : MirOperand) :
    BuildPost s (pushInstr s (.emit op)) := by
  set s2 := pushInstr s (.emit op) with hs2
  have hblocks : s2.blocks = s.blocks := rfl
  have hcur : s2.cur = ⟨s.cur.id, s.cur.instructions ++ [.emit op], s.cur.terminator⟩ := rfl
  have hcurDests : blockDests s2.cur = blockDests s.cur := by
    rw [hcur, blockDests_append]
    unfold blockDests
    simp [instDest]
  refine ⟨?_, Nat.le_refl _, Nat.le_refl _, ⟨[], (List.append_nil _).symm⟩,
    fun b hb => Or.inl (hblocks ▸ hb), Or.inl rfl, ?_, ?_, ?_⟩
  · refine ⟨?_, ?_, ?_, ?_⟩
    · have : (s2.blocks ++ [s2.cur]).map BasicBlock.id
          = (s.blocks ++ [s.cur]).map BasicBlock.id := by
        rw [hblocks, hcur]
        simp
      rw [this]
      exact h.ids_nodup
    · intro b hb
      rcases List.mem_append.mp hb with hb | hb
      · exact h.ids_lt b (List.mem_append_left _ hb)
      · rw [List.mem_singleton.mp hb, hcur]
        exact h.ids_lt s.cur (List.mem_append_right _ (List.mem_singleton.mpr rfl))
    · intro b hb
      rcases List.mem_append.mp hb with hb | hb
      · exact h.dests_nodup b (List.mem_append_left _ hb)
      · rw [List.mem_singleton.mp hb, hcurDests]
        exact h.dests_nodup s.cur (List.mem_append_right _ (List.mem_singleton.mpr rfl))
    · intro b hb d hd
      rcases List.mem_append.mp hb with hb | hb
      · exact h.dests_lt b (List.mem_append_left _ hb) d hd
      · rw [List.mem_singleton.mp hb, hcurDests] at hd
        exact h.dests_lt s.cur (List.mem_append_right _ (List.mem_singleton.mpr rfl)) d hd
  · intro d hd
    rw [hcurDests] at hd
    exact Or.inl hd
  · intro d hd
    rcases allDests_elim hd with ⟨b, hb, hdb⟩ | hdc
    · exact mem_allDests_of_blocks (hblocks ▸ hb) hdb
    · refine mem_allDests_of_cur ?_
      rw [hcurDests]
      exact hdc
  · intro k h1 h2
    have : s2.next_ssa_var = s.next_ssa_var := rfl
    rw [this] at h2
    omega

/-- Changing the name map alone leaves every invariant untouched. -/
theorem post_varMap (s : BState) (h : StOk s) (vm : List (String × Nat)) :
    BuildPost s { s with var_map := vm } := by
  refine ⟨⟨h.ids_nodup, h.ids_lt, h.dests_nodup, h.dests_lt⟩,
    Nat.le_refl _, Nat.le_refl _, ⟨[], (List.append_nil _).symm⟩,
    fun b hb => Or.inl hb, Or.inl rfl, fun d hd => Or.inl hd,
    fun d hd => hd, fun k h1 h2 => absurd (Nat.lt_of_le_of_lt h1 h2) (Nat.lt_irrefl _)⟩

/-- Raising the two counters preserves the invariant. -/
theorem stOk_bump (s : BState) (h : StOk s) (n m : Nat)
    (hn : s.next_ssa_var ≤ n) (hm : s.next_block_id ≤ m) :
    StOk { s with next_ssa_var := n, next_block_id := m } := by
  refine ⟨h.ids_nodup, ?_, h.dests_nodup, ?_⟩
  · intro b hb
    have := h.ids_lt b hb
    simp only []
    omega
  · intro b hb d hd
    have := h.dests_lt b hb d hd
    simp only []
    omega

/-- Sealing the current block with a fresh-id successor preserves the
invariant, provided the appended destinations are new to the block and
the fresh id is unused. -/
theorem seal_stOk (s : BState) (h : StOk s) (extra : List MirInstruction)
    (term : MirTerminator) (nid : Nat)
    (hfresh : ∀ b ∈ s.blocks, b.id ≠ nid) (hcurne : s.cur.id ≠ nid)
    (hlt : nid < s.next_block_id)
    (hnodup : (extra.filterMap instDest).Nodup)
    (hex : ∀ d ∈ extra.filterMap instDest, d ∉ blockDests s.cur ∧ d < s.next_ssa_var) :
    StOk (sealCur s extra term nid) := by
  have hblocks : (sealCur s extra term nid).blocks
      = s.blocks ++ [⟨s.cur.id, s.cur.instructions ++ extra, term⟩] := rfl
  have hcur : (sealCur s extra term nid).cur = ⟨nid, [], .unreachable⟩ := rfl
  have hsb : blockDests ⟨s.cur.id, s.cur.instructions ++ extra, term⟩
      = blockDests s.cur ++ extra.filterMap instDest := by
    rw [blockDests_append]
    rfl
  refine ⟨?_, ?_, ?_, ?_⟩
  · have heq : ((sealCur s extra term nid).blocks
        ++ [(sealCur s extra term nid).cur]).map BasicBlock.id
        = (s.blocks ++ [s.cur]).map BasicBlock.id ++ [nid] := by
      rw [hblocks, hcur]
      simp [List.map_append]
    rw [heq]
    refine List.nodup_append.mpr ⟨h.ids_nodup, List.nodup_singleton _, ?_⟩
    intro x hx
    simp only [List.mem_singleton]
    intro hcon
    subst hcon
    rw [List.map_append] at hx
    rcases List.mem_append.mp hx with hx | hx
    · obtain ⟨b, hb, hbid⟩ := List.mem_map.mp hx
      exact hfresh b hb hbid
    · simp only [List.map_cons, List.map_nil, List.mem_singleton] at hx
      exact hcurne hx.symm
  · intro b hb
    rw [hblocks, hcur] at hb
    rcases List.mem_append.mp hb with hb | hb
    · rcases List.mem_append.mp hb with hb | hb
      · exact h.ids_lt b (List.mem_append_left _ hb)
      · rw [List.mem_singleton.mp hb]
        exact h.ids_lt s.cur (List.mem_append_right _ (List.mem_singleton.mpr rfl))
    · rw [List.mem_singleton.mp hb]
      exact hlt
  · intro b hb
    rw [hblocks, hcur] at hb
    rcases List.mem_append.mp hb with hb | hb
    · rcases List.mem_append.mp hb with hb | hb
      · exact h.dests_nodup b (List.mem_append_left _ hb)
      · rw [List.mem_singleton.mp hb, hsb]
        refine List.nodup_append.mpr ⟨?_, hnodup, ?_⟩
        · exact h.dests_nodup s.cur (List.mem_append_right _ (List.mem_singleton.mpr rfl))
        · intro d hd hd2
          exact (hex d hd2).1 hd
    · rw [List.mem_singleton.mp hb]
      simp [blockDests]
  · intro b hb d hd
    rw [hblocks, hcur] at hb
    rcases List.mem_append.mp hb with hb | hb
    · rcases List.mem_append.mp hb with hb | hb
      · exact h.dests_lt b (List.mem_append_left _ hb) d hd
      · rw [List.mem_singleton.mp hb, hsb] at hd
        rcases List.mem_append.mp hd with hd | hd
        · exact h.dests_lt s.cur (List.mem_append_right _ (List.mem_singleton.mpr rfl)) d hd
        · exact (hex d hd).2
    · rw [List.mem_singleton.mp hb] at hd
      simp [blockDests] at hd

/-- Sealing keeps every recorded destination and records the appended
ones. -/
theorem seal_allDests (s : BState) (extra : List MirInstruction)
    (term : MirTerminator) (nid : Nat) :
    (∀ d ∈ allDests s, d ∈ allDests (sealCur s extra term nid))
    ∧ (∀ d ∈ extra.filterMap instDest, d ∈ allDests (sealCur s extra term nid)) := by
  have hsb : blockDests ⟨s.cur.id, s.cur.instructions ++ extra, term⟩
      = blockDests s.cur ++ extra.filterMap instDest := by
    rw [blockDests_append]
    rfl
  have hmem : (⟨s.cur.id, s.cur.instructions ++ extra, term⟩ : BasicBlock)
      ∈ (sealCur s extra term nid).blocks := by
    show _ ∈ s.blocks ++ [_]
    exact List.mem_append_right _ (List.mem_singleton.mpr rfl)
  constructor
  · intro d hd
    rcases allDests_elim hd with ⟨b, hb, hdb⟩ | hdc
    · refine mem_allDests_of_blocks (b := b) ?_ hdb
      show b ∈ s.blocks ++ [_]
      exact List.mem_append_left _ hb
    · refine mem_allDests_of_blocks hmem ?_
      rw [hsb]
      exact List.mem_append_left _ hdc
  · intro d hd
    refine mem_allDests_of_blocks hmem ?_
    rw [hsb]
    exact List.mem_append_right _ hd

/-- Chaining block-list extensions. -/
theorem pre_chain {α : Type} {l1 l2 l3 : List α}
    (h1 : ∃ t, l2 = l1 ++ t) (h2 : ∃ t, l3 = l2 ++ t) : ∃ t, l3 = l1 ++ t := by
  obtain ⟨a, ha⟩ := h1
  obtain ⟨b, hb⟩ := h2
  exact ⟨a ++ b, by rw [hb, ha, List.append_assoc]⟩

mutual
/-- Every build_expression step satisfies the builder postcondition. -/
theorem build_post : (e : HirExpression) → (s : BState) → StOk s →
    BuildPost s (build_expression e s).2
  | .literal lit, s, h => BuildPost.rfl_of s h
  | .variable name, s, h => BuildPost.rfl_of s h
  | .actsAs subject sh, s, h => build_post subject s h
  | .call name args, s, h => by
      have p1 : BuildPost s (buildOperands args s).2 := buildOperands_post args s h
      set mir_args := (buildOperands args s).1
      set s1 := (buildOperands args s).2
      show BuildPost s ((match mir_args, binOpOfName name with
        | [lhs, rhs], some op =>
            (MirOperand.variable s1.next_ssa_var,
              pushInstr { s1 with next_ssa_var := s1.next_ssa_var + 1 }
                (.binaryOperation s1.next_ssa_var op lhs rhs))
        | margs, _ =>
            (MirOperand.variable s1.next_ssa_var,
              pushInstr { s1 with next_ssa_var := s1.next_ssa_var + 1 }
                (.call s1.next_ssa_var name margs))) : MirOperand × BState).2
      split
      · exact p1.comp (post_pushFresh s1 p1.ok
          (fun n => .binaryOperation n _ _ _) rfl)
      · exact p1.comp (post_pushFresh s1 p1.ok (fun n => .call n name _) rfl)
  | .derivation name ti value body, s, h => by
      have p1 : BuildPost s (build_expression value s).2 := build_post value s h
      set vop := (build_expression value s).1 with hvop
      set s1 := (build_expression value s).2 with hs1
      set s3 := pushInstr { s1 with next_ssa_var := s1.next_ssa_var + 1 }
        (.assign s1.next_ssa_var vop) with hs3
      have p2 : BuildPost s1 s3 := post_pushFresh s1 p1.ok (fun n => .assign n vop) rfl
      set s4 : BState := { s3 with var_map := (name, s1.next_ssa_var) :: s3.var_map }
        with hs4
      have p3 : BuildPost s3 s4 :=
        post_varMap s3 p2.ok ((name, s1.next_ssa_var) :: s3.var_map)
      have p4 : BuildPost s4 (build_expression body s4).2 := build_post body s4 p3.ok
      show BuildPost s (build_expression body s4).2
      exact p1.comp (p2.comp (p3.comp p4))
  | .ifE c t e, s, h => by
      have p1 : BuildPost s (build_expression c s).2 := build_post c s h
      set s1 := (build_expression c s).2 with hs1
      set cond_op := (build_expression c s).1 with hcond
      set dest := s1.next_ssa_var with hdest
      set tid := s1.next_block_id with htid
      set sD : BState := { s1 with next_ssa_var := dest + 1, next_block_id := tid + 3 }
        with hsD
      set sE := sealCur sD [] (.condBranch cond_op tid (tid + 1)) tid with hsE
      have hblt : ∀ b ∈ s1.blocks, b.id < tid :=
        fun b hb => p1.ok.ids_lt b (List.mem_append_left _ hb)
      have hclt : s1.cur.id < tid :=
        p1.ok.ids_lt s1.cur (List.mem_append_right _ (List.mem_singleton.mpr rfl))
      have hsDok : StOk sD :=
        stOk_bump s1 p1.ok (dest + 1) (tid + 3) (by omega) (by omega)
      have hsEok : StOk sE := by
        refine seal_stOk sD hsDok [] _ tid ?_ ?_ ?_ ?_ ?_
        · intro b hb
          exact Nat.ne_of_lt (hblt b hb)
        · exact Nat.ne_of_lt hclt
        · show tid < tid + 3
          omega
        · simp
        · intro d hd
          simp at hd
      have p5 : BuildPost sE (build_expression t sE).2 := build_post t sE hsEok
      set s7 := (build_expression t sE).2 with hs7
      set then_res := (build_expression t sE).1 with hthen
      set sF := sealCur s7 [.assign dest then_res] (.branch (tid + 2)) (tid + 1)
        with hsF
      have hE_blocks : sE.blocks
          = s1.blocks ++ [⟨s1.cur.id, s1.cur.instructions ++ [],
              .condBranch cond_op tid (tid + 1)⟩] := rfl
      have hEcur : sE.cur.id = tid := rfl
      have hEssa : sE.next_ssa_var = dest + 1 := rfl
      have hEblk : sE.next_block_id = tid + 3 := rfl
      have hEcurDests : blockDests sE.cur = [] := rfl
      have hEblt : ∀ b ∈ sE.blocks, b.id < tid := by
        intro b hb
        rw [hE_blocks] at hb
        rcases List.mem_append.mp hb with hb | hb
        · exact hblt b hb
        · rw [List.mem_singleton.mp hb]
          exact hclt
      have h7blocks : ∀ b ∈ s7.blocks, b.id < tid ∨ b.id = tid ∨ tid + 3 ≤ b.id := by
        intro b hb
        rcases p5.blocks_new b hb with hb1 | hb1 | hb1
        · exact Or.inl (hEblt b hb1)
        · exact Or.inr (Or.inl (hb1.trans hEcur))
        · rw [hEblk] at hb1
          exact Or.inr (Or.inr hb1)
      have h7cur : s7.cur.id = tid ∨ tid + 3 ≤ s7.cur.id := by
        rcases p5.cur_id with h1 | h1
        · exact Or.inl (h1.trans hEcur)
        · rw [hEblk] at h1
          exact Or.inr h1
      have h7blk : tid + 3 ≤ s7.next_block_id := hEblk ▸ p5.blk_mono
      have h7ssa : dest + 1 ≤ s7.next_ssa_var := hEssa ▸ p5.ssa_mono
      have hsFok : StOk sF := by
        refine seal_stOk s7 p5.ok [.assign dest then_res] _ (tid + 1) ?_ ?_ ?_ ?_ ?_
        · intro b hb
          rcases h7blocks b hb with h1 | h1 | h1 <;> omega
        · rcases h7cur with h1 | h1 <;> omega
        · omega
        · simp [instDest]
        · intro d hd
          simp only [List.filterMap_cons, instDest, List.filterMap_nil,
            List.mem_singleton] at hd
          subst hd
          refine ⟨?_, by omega⟩
          intro hcon
          rcases p5.cur_dests dest hcon with h1 | h1
          · rw [hEcurDests] at h1
            simp at h1
          · rw [hEssa] at h1
            omega
      have p7 : BuildPost sF (build_expression e sF).2 := build_post e sF hsFok
      set s9 := (build_expression e sF).2 with hs9
      set else_res := (build_expression e sF).1 with helse
      set s10 := sealCur s9 [.assign dest else_res] (.branch (tid + 2)) (tid + 2)
        with hs10
      have hF_blocks : sF.blocks
          = s7.blocks ++ [⟨s7.cur.id, s7.cur.instructions ++ [.assign dest then_res],
              .branch (tid + 2)⟩] := rfl
      have hFcur : sF.cur.id = tid + 1 := rfl
      have hFssa : sF.next_ssa_var = s7.next_ssa_var := rfl
      have hFblk : sF.next_block_id = s7.next_block_id := rfl
      have hFcurDests : blockDests sF.cur = [] := rfl
      have h9cur : s9.cur.id = tid + 1 ∨ tid + 3 ≤ s9.cur.id := by
        rcases p7.cur_id with h1 | h1
        · exact Or.inl (h1.trans hFcur)
        · rw [hFblk] at h1
          omega
      have h9blk : tid + 3 ≤ s9.next_block_id := by
        have := p7.blk_mono
        rw [hFblk] at this
        omega
      have h9ssa : s7.next_ssa_var ≤ s9.next_ssa_var := hFssa ▸ p7.ssa_mono
      have h9blocks : ∀ b ∈ s9.blocks,
          b.id < tid ∨ b.id = tid ∨ b.id = tid + 1 ∨ tid + 3 ≤ b.id := by
        intro b hb
        rcases p7.blocks_new b hb with hb1 | hb1 | hb1
        · rw [hF_blocks] at hb1
          rcases List.mem_append.mp hb1 with hb2 | hb2
          · rcases h7blocks b hb2 with h1 | h1 | h1
            · exact Or.inl h1
            · exact Or.inr (Or.inl h1)
            · exact Or.inr (Or.inr (Or.inr h1))
          · rw [List.mem_singleton.mp hb2]
            rcases h7cur with h1 | h1
            · exact Or.inr (Or.inl h1)
            · exact Or.inr (Or.inr (Or.inr h1))
        · exact Or.inr (Or.inr (Or.inl (hb1.trans hFcur)))
        · rw [hFblk] at hb1
          exact Or.inr (Or.inr (Or.inr (Nat.le_trans h7blk hb1)))
      have hs10ok : StOk s10 := by
        refine seal_stOk s9 p7.ok [.assign dest else_res] _ (tid + 2) ?_ ?_ ?_ ?_ ?_
        · intro b hb
          rcases h9blocks b hb with h1 | h1 | h1 | h1 <;> omega
        · rcases h9cur with h1 | h1 <;> omega
        · omega
        · simp [instDest]
        · intro d hd
          simp only [List.filterMap_cons, instDest, List.filterMap_nil,
            List.mem_singleton] at hd
          subst hd
          refine ⟨?_, by omega⟩
          intro hcon
          rcases p7.cur_dests dest hcon with h1 | h1
          · rw [hFcurDests] at h1
            simp at h1
          · rw [hFssa] at h1
            omega
      have hnb : s.next_block_id ≤ tid := htid ▸ p1.blk_mono
      have hns : s.next_ssa_var ≤ dest := hdest ▸ p1.ssa_mono
      have h10ssa : s10.next_ssa_var = s9.next_ssa_var := rfl
      have h10blk : s10.next_block_id = s9.next_block_id := rfl
      have h10blocks : s10.blocks
          = s9.blocks ++ [⟨s9.cur.id, s9.cur.instructions ++ [.assign dest else_res],
              .branch (tid + 2)⟩] := rfl
      have h10cur : s10.cur.id = tid + 2 := rfl
      have h10curDests : blockDests s10.cur = [] := rfl
      have hchain9 : ∀ d, d ∈ allDests s9 → d ∈ allDests s10 :=
        fun d hd =>
          (seal_allDests s9 [.assign dest else_res] (.branch (tid + 2)) (tid + 2)).1 d hd
      have hchain7 : ∀ d, d ∈ allDests s7 → d ∈ allDests s10 := by
        intro d hd
        have d4 : d ∈ allDests sF :=
          (seal_allDests s7 [.assign dest then_res] (.branch (tid + 2)) (tid + 1)).1 d hd
        exact hchain9 d (p7.dests_mono d d4)
      have hchainAll : ∀ d, d ∈ allDests s1 → d ∈ allDests s10 := by
        intro d hd
        have d2 : d ∈ allDests sE :=
          (seal_allDests sD [] (.condBranch cond_op tid (tid + 1)) tid).1 d hd
        exact hchain7 d (p5.dests_mono d d2)
      have hdestIn : dest ∈ allDests s10 := by
        have d4 : dest ∈ allDests sF :=
          (seal_allDests s7 [.assign dest then_res] (.branch (tid + 2)) (tid + 1)).2 dest
            (by simp [instDest])
        exact hchain9 dest (p7.dests_mono dest d4)
      show BuildPost s s10
      refine ⟨hs10ok, ?_, ?_, ?_, ?_, ?_, ?_, ?_, ?_⟩
      · rw [h10ssa]
        omega
      · rw [h10blk]
        omega
      · refine pre_chain p1.blocks_pre (pre_chain ⟨_, hE_blocks⟩
          (pre_chain p5.blocks_pre (pre_chain ⟨_, hF_blocks⟩
            (pre_chain p7.blocks_pre ⟨_, h10blocks⟩))))
      · intro b hb
        rw [h10blocks] at hb
        rcases List.mem_append.mp hb with hb | hb
        · rcases p7.blocks_new b hb with hb1 | hb1 | hb1
          · rw [hF_blocks] at hb1
            rcases List.mem_append.mp hb1 with hb2 | hb2
            · rcases p5.blocks_new b hb2 with hb3 | hb3 | hb3
              · rw [hE_blocks] at hb3
                rcases List.mem_append.mp hb3 with hb4 | hb4
                · exact p1.blocks_new b hb4
                · rw [List.mem_singleton.mp hb4]
                  rcases p1.cur_id with h1 | h1
                  · exact Or.inr (Or.inl h1)
                  · exact Or.inr (Or.inr h1)
              · rw [hEcur] at hb3
                exact Or.inr (Or.inr (by omega))
              · rw [hEblk] at hb3
                exact Or.inr (Or.inr (by omega))
            · rw [List.mem_singleton.mp hb2]
              refine Or.inr (Or.inr ?_)
              show s.next_block_id ≤ s7.cur.id
              rcases h7cur with h1 | h1 <;> omega
          · rw [hFcur] at hb1
            exact Or.inr (Or.inr (by omega))
          · rw [hFblk] at hb1
            exact Or.inr (Or.inr (by omega))
        · rw [List.mem_singleton.mp hb]
          refine Or.inr (Or.inr ?_)
          show s.next_block_id ≤ s9.cur.id
          rcases h9cur with h1 | h1 <;> omega
      · rw [h10cur]
        exact Or.inr (by omega)
      · intro d hd
        rw [h10curDests] at hd
        simp at hd
      · intro d hd
        exact hchainAll d (p1.dests_mono d hd)
      · intro k hk1 hk2
        rw [h10ssa] at hk2
        by_cases hA : k < s1.next_ssa_var
        · exact hchainAll k (p1.dense k hk1 hA)
        · by_cases hB : k = dest
          · rw [hB]
            exact hdestIn
          · by_cases hC : k < s7.next_ssa_var
            · refine hchain7 k (p5.dense k ?_ hC)
              rw [hEssa]
              omega
            · refine hchain9 k (p7.dense k ?_ ?_)
              · rw [hFssa]
                omega
              · exact hk2
  | .block es, s, h => buildBlockSeq_post es (.constant .nothing) s h
  | .emit e, s, h => by
      have p1 : BuildPost s (build_expression e s).2 := build_post e s h
      set op := (build_expression e s).1 with hop
      set s1 := (build_expression e s).2 with hs1
      show BuildPost s (pushInstr s1 (.emit op))
      exact p1.comp (post_pushEmit s1 p1.ok op)
  | .tuple es, s, h => by
      have p1 : BuildPost s (buildOperands es s).2 := buildOperands_post es s h
      set elems := (buildOperands es s).1 with he
      set s1 := (buildOperands es s).2 with hs1
      show BuildPost s (pushInstr { s1 with next_ssa_var := s1.next_ssa_var + 1 }
        (.tuple s1.next_ssa_var elems))
      exact p1.comp (post_pushFresh s1 p1.ok (fun n => .tuple n elems) rfl)
  | .index subject i, s, h => by
      have p1 : BuildPost s (build_expression subject s).2 := build_post subject s h
      set subj_op := (build_expression subject s).1 with hsub
      set s1 := (build_expression subject s).2 with hs1
      show BuildPost s (pushInstr { s1 with next_ssa_var := s1.next_ssa_var + 1 }
        (.index s1.next_ssa_var subj_op i))
      exact p1.comp (post_pushFresh s1 p1.ok (fun n => .index n subj_op i) rfl)

theorem buildOperands_post : (es : List HirExpression) → (s : BState) → StOk s →
    BuildPost s (buildOperands es s).2
  | [], s, h => BuildPost.rfl_of s h
  | e :: es, s, h => by
      have p1 : BuildPost s (build_expression e s).2 := build_post e s h
      set s1 := (build_expression e s).2 with hs1
      have p2 : BuildPost s1 (buildOperands es s1).2 := buildOperands_post es s1 p1.ok
      show BuildPost s (buildOperands es s1).2
      exact p1.comp p2

theorem buildBlockSeq_post : (es : List HirExpression) → (last : MirOperand) →
    (s : BState) → StOk s → BuildPost s (buildBlockSeq es last s).2
  | [], last, s, h => BuildPost.rfl_of s h
  | e :: es, last, s, h => by
      have p1 : BuildPost s (build_expression e s).2 := build_post e s h
      set res := (build_expression e s).1 with hres
      set s1 := (build_expression e s).2 with hs1
      have p2 : BuildPost s1 (buildBlockSeq es res s1).2 :=
        buildBlockSeq_post es res s1 p1.ok
      show BuildPost s (buildBlockSeq es res s1).2
      exact p1.comp p2
end

/-- Membership in a contiguous id range. -/
theorem mem_range_iff_of : (len st k : Nat) →
    (k ∈ List.range' st len ↔ st ≤ k ∧ k < st + len)
  | 0, st, k => by
      constructor
      · intro h
        exact absurd h (List.not_mem_nil k)
      · intro h
        exact absurd (Nat.lt_of_le_of_lt h.1 h.2) (Nat.lt_irrefl st)
  | len + 1, st, k => by
      have ih := mem_range_iff_of len (st + 1) k
      show k ∈ st :: List.range' (st + 1) len ↔ st ≤ k ∧ k < st + (len + 1)
      rw [List.mem_cons, ih]
      omega

/-- The parameter allocation loop hands the k-th formal parameter the ssa
id start + k and leaves the counter at start + count. -/
theorem allocArgs_spec : (args : List HirArgument) → (n : Nat) →
    (vm : List (String × Nat)) →
    (allocArgs args n vm).1.map MirArgument.ssa_var = List.range' n args.length
      ∧ (allocArgs args n vm).2.1 = n + args.length
  | [], n, vm => ⟨rfl, rfl⟩
  | a :: rest, n, vm => by
      have ih := allocArgs_spec rest (n + 1) ((a.name, n) :: vm)
      refine ⟨?_, ?_⟩
      · show (MirArgument.mk a.name a.typ n ::
            (allocArgs rest (n + 1) ((a.name, n) :: vm)).1).map MirArgument.ssa_var
          = List.range' n (a :: rest).length
        rw [List.map_cons, ih.1]
        rfl
      · show (allocArgs rest (n + 1) ((a.name, n) :: vm)).2.1
          = n + (a :: rest).length
        rw [ih.2]
        show n + 1 + rest.length = n + (rest.length + 1)
        omega

/-- Claim C4, amended: for every behavior header and body, in the function
MirBuilder::build_function produces the basic-block ids are pairwise
distinct, within each single basic block the written ssa destinations are
pairwise distinct, and the ssa identifiers are dense from 0 fresh per
function: a number is a parameter ssa id or an instruction destination
exactly when it lies below one bound.  The original claim's across-blocks
at-most-once condition fails: mir_if_assigns_dest_twice shows the if-result
id written once in the then block and once in the else block. -/
theorem mir_function_invariants (header : HirBehaviorHeader)
    (body : HirExpression) :
    ((build_function header body).blocks.map BasicBlock.id).Nodup
      ∧ (∀ b ∈ (build_function header body).blocks, (blockDests b).Nodup)
      ∧ ∃ N, ∀ k,
          (k ∈ (build_function header body).args.map MirArgument.ssa_var
            ∨ k ∈ (build_function header body).blocks.flatMap blockDests)
          ↔ k < N := by
  have hA := allocArgs_spec header.args 0 []
  set A := allocArgs header.args 0 [] with hAdef
  set s0 : BState := ⟨A.2.1, 1, A.2.2, ⟨0, [], .unreachable⟩, []⟩ with hs0def
  have hbl0 : s0.blocks = [] := rfl
  have hcur0 : s0.cur = ⟨0, [], MirTerminator.unreachable⟩ := rfl
  have hns0 : s0.next_ssa_var = A.2.1 := rfl
  have hnb0 : s0.next_block_id = 1 := rfl
  have h0 : StOk s0 := by
    refine ⟨?_, ?_, ?_, ?_⟩
    · rw [hbl0, hcur0]
      simp
    · intro b hb
      rw [hbl0, List.nil_append, List.mem_singleton] at hb
      rw [hb, hnb0]
      exact Nat.zero_lt_one
    · intro b hb
      rw [hbl0, List.nil_append, List.mem_singleton] at hb
      rw [hb]
      exact List.nodup_nil
    · intro b hb d hd
      rw [hbl0, List.nil_append, List.mem_singleton] at hb
      rw [hb] at hd
      exact absurd hd (List.not_mem_nil d)
  have P := build_post body s0 h0
  set s1 := (build_expression body s0).2 with hs1def
  set rop := (build_expression body s0).1 with hropdef
  have hfb : (build_function header body).blocks
      = s1.blocks ++ [⟨s1.cur.id, s1.cur.instructions, .ret rop⟩] := rfl
  have hfa : (build_function header body).args = A.1 := rfl
  have hlen : s0.next_ssa_var = header.args.length := by
    rw [hns0, hA.2]
    exact Nat.zero_add _
  refine ⟨?_, ?_, ?_⟩
  · have hmap : (build_function header body).blocks.map BasicBlock.id
        = (s1.blocks ++ [s1.cur]).map BasicBlock.id := by
      rw [hfb]
      simp
    rw [hmap]
    exact P.ok.ids_nodup
  · intro b hb
    rw [hfb, List.mem_append, List.mem_singleton] at hb
    rcases hb with hb | hb
    · exact P.ok.dests_nodup b (List.mem_append_left _ hb)
    · rw [hb]
      have hrd : blockDests ⟨s1.cur.id, s1.cur.instructions, .ret rop⟩
          = blockDests s1.cur := rfl
      rw [hrd]
      exact P.ok.dests_nodup s1.cur
        (List.mem_append_right _ (List.mem_singleton.mpr rfl))
  · refine ⟨s1.next_ssa_var, fun k => ?_⟩
    have hargs : (build_function header body).args.map MirArgument.ssa_var
        = List.range' 0 header.args.length := by
      rw [hfa]
      exact hA.1
    have hflat : (build_function header body).blocks.flatMap blockDests
        = allDests s1 := by
      rw [hfb]
      unfold allDests
      simp only [List.flatMap_append, List.flatMap_cons, List.flatMap_nil,
        List.append_nil]
      rfl
    rw [hargs, hflat]
    constructor
    · intro hk
      rcases hk with hk | hk
      · have hr := (mem_range_iff_of header.args.length 0 k).mp hk
        have h2 : k < s0.next_ssa_var := by omega
        exact Nat.lt_of_lt_of_le h2 P.ssa_mono
      · rcases allDests_elim hk with ⟨b, hb, hd⟩ | hd
        · exact P.ok.dests_lt b (List.mem_append_left _ hb) k hd
        · exact P.ok.dests_lt s1.cur
            (List.mem_append_right _ (List.mem_singleton.mpr rfl)) k hd
    · intro hk
      by_cases hc : k < s0.next_ssa_var
      · refine Or.inl ((mem_range_iff_of header.args.length 0 k).mpr ?_)
        refine ⟨Nat.zero_le k, ?_⟩
        omega
      · exact Or.inr (P.dense k (Nat.le_of_not_lt hc) hk)

/-- The literal-or-bare-identifier pattern of the delivers-nothing check,
src/parser.rs lines 375 to 383: the fourteen literal variants and
Identifier. -/
def litOrIdent : Expression → Bool
  | .i8 _ | .i16 _ | .i32 _ | .i64 _ | .i128 _
  | .u8 _ | .u16 _ | .u32 _ | .u64 _ | .u128 _
  | .f32 _ | .f64 _ | .text _ | .boolean _ | .identifier _ => true
  | _ => false

/-- The is_yielding computation of parse_behavior, src/parser.rs lines 374
to 389: a bare literal or identifier yields, a Block yields when its last
element is one, everything else does not. -/
def is_yielding : Expression → Bool
  | .block exprs =>
      match exprs.getLast? with
      | some last => litOrIdent last
      | none => false
  | e => litOrIdent e

/-- The tail of parse_behavior after the body is assembled, src/parser.rs
lines 373 to 399: reject a yielding body under delivers nothing, otherwise
deliver the Behavior discourse. -/
def parse_behavior_tail (header : BehaviorHeader) (body : Expression) :
    Except OnuError Discourse :=
  if OnuType.beq header.delivers .nothing && is_yielding body then
    .error (.parseError
      "Behavior body yields a value but delivers nothing was specified.")
  else
    .ok (.behavior header body)

/-- A delivers-nothing header for the claim C7 statements. -/
def c7Header : BehaviorHeader :=
  ⟨"f", false, "", [], .nothing, none, false⟩

/-- Claim C7, counterexample: a delivers-nothing behavior whose body is an
if/then/else with two literal branch tails is accepted, where the claim
requires rejection when either branch tail is a literal. -/
theorem nothing_check_accepts_literal_if_branches :
    parse_behavior_tail c7Header (.ifE (.boolean true) (.i64 1) (.i64 2))
      = .ok (.behavior c7Header (.ifE (.boolean true) (.i64 1) (.i64 2))) := rfl

/-- A bare literal or identifier yields also through is_yielding. -/
theorem is_yielding_of_lit (e : Expression) (h : litOrIdent e = true) :
    is_yielding e = true := by
  cases e <;> simp_all [is_yielding, litOrIdent]

/-- Claim C7, amended: under delivers nothing the parse_behavior tail check
rejects exactly a body that is itself a literal or a bare identifier or a
Block whose last element is one; it never recurses, so an if/then/else in
tail position is accepted whatever its branch tails are, a derivation is
accepted whatever its body is, an emit and a block ending in emit are
accepted, and under any other delivers type every body is accepted. -/
theorem delivers_nothing_tail_check :
    (∀ (header : BehaviorHeader) (body : Expression),
        header.delivers = .nothing → litOrIdent body = true →
        parse_behavior_tail header body = .error (.parseError
          "Behavior body yields a value but delivers nothing was specified."))
    ∧ (∀ (header : BehaviorHeader) (c t e : Expression),
        parse_behavior_tail header (.ifE c t e)
          = .ok (.behavior header (.ifE c t e)))
    ∧ (∀ (header : BehaviorHeader) (name : String) (ti : Option TypeInfo)
        (v b : Expression),
        parse_behavior_tail header (.derivation name ti v b)
          = .ok (.behavior header (.derivation name ti v b)))
    ∧ (∀ (header : BehaviorHeader) (e : Expression),
        parse_behavior_tail header (.emit e)
          = .ok (.behavior header (.emit e)))
    ∧ (∀ (header : BehaviorHeader) (es : List Expression) (e : Expression),
        parse_behavior_tail header (.block (es ++ [.emit e]))
          = .ok (.behavior header (.block (es ++ [.emit e]))))
    ∧ (∀ (header : BehaviorHeader) (body : Expression),
        header.delivers ≠ .nothing →
        parse_behavior_tail header body = .ok (.behavior header body)) := by
  refine ⟨?_, ?_, ?_, ?_, ?_, ?_⟩
  · intro header body h hlit
    simp only [parse_behavior_tail, h]
    rw [is_yielding_of_lit body hlit]
    rfl
  · intro header c t e
    simp only [parse_behavior_tail]
    have hy : is_yielding (.ifE c t e) = false := rfl
    rw [hy]
    simp
  · intro header name ti v b
    simp only [parse_behavior_tail]
    have hy : is_yielding (.derivation name ti v b) = false := rfl
    rw [hy]
    simp
  · intro header e
    simp only [parse_behavior_tail]
    have hy : is_yielding (.emit e) = false := rfl
    rw [hy]
    simp
  · intro header es e
    simp only [parse_behavior_tail]
    have hy : is_yielding (.block (es ++ [.emit e])) = false := by
      simp only [is_yielding, List.getLast?_concat]
      rfl
    rw [hy]
    simp
  · intro header body h
    have hb : OnuType.beq header.delivers .nothing = false := by
      cases hbe : OnuType.beq header.delivers .nothing
      · rfl
      · exact absurd (OnuType.beq_eq _ _ hbe) h
    simp only [parse_behavior_tail, hb]
    rfl

/-- The first and last conjuncts of delivers_nothing_tail_check at concrete
inputs: a bare literal body under delivers nothing is rejected, and the
same body under delivers i64 is accepted. -/
theorem delivers_nothing_tail_check_witness :
    parse_behavior_tail c7Header (.i64 3)
        = .error (.parseError
          "Behavior body yields a value but delivers nothing was specified.")
      ∧ parse_behavior_tail ⟨"f", false, "", [], .i64, none, false⟩ (.i64 3)
        = .ok (.behavior ⟨"f", false, "", [], .i64, none, false⟩ (.i64 3)) :=
  ⟨delivers_nothing_tail_check.1 c7Header (.i64 3) rfl rfl,
   delivers_nothing_tail_check.2.2.2.2.2 ⟨"f", false, "", [], .i64, none, false⟩
     (.i64 3) (by simp)⟩

/-- Registry::add_name, src/registry.rs lines 136 to 139. -/
def Registry.add_name (r : Registry) (name : String) (arity : Nat) : Registry :=
  { r with
      names := setInsert name r.names
      arities := (name, arity) :: r.arities }

/-- Parser::consume, src/parser.rs lines 885 to 901, on the explicit token
stream: drop the head when it equals the expected token under Token's
PartialEq. -/
def consume (expected : Token) : List Token → Except OnuError (List Token)
  | [] => .error (.parseError "Expected token, found EOF")
  | t :: rest =>
      if Token.beq t expected then .ok rest
      else .error (.parseError "Expected token, found another")

/-- Parser::consume_identifier, src/parser.rs lines 903 to 971, at the one
token it examines (tokens.get(pos), none at EOF).  Only the Identifier arm
consults the restricted flag and the registry; every keyword arm converts
the token to its lexeme unconditionally. -/
def consume_identifier (registry : Option Registry) (restricted : Bool) :
    Option Token → Except OnuError String
  | none => .error (.parseError "Expected Identifier, found EOF")
  | some t =>
      match t with
      | .Identifier name =>
          if restricted then
            match registry with
            | some reg =>
                if reg.is_registered name then
                  .error (.parseError
                    "Ambiguous identifier: Name is already used by a registered behavior.")
                else .ok name
            | none => .ok name
          else .ok name
      | .Integer => .ok "integer"
      | .Float => .ok "float"
      | .RealNumber => .ok "realnumber"
      | .Strings => .ok "string"
      | .Matrix => .ok "matrix"
      | .Nothing => .ok "nothing"
      | .The => .ok "the"
      | .With => .ok "with"
      | .If => .ok "if"
      | .Is => .ok "is"
      | .Called => .ok "called"
      | .As => .ok "as"
      | .Emit => .ok "emit"
      | .Broadcasts => .ok "broadcasts"
      | .A => .ok "a"
      | .An => .ok "an"
      | .Of => .ok "of"
      | .Derivation => .ok "derivation"
      | .DerivesFrom => .ok "derives-from"
      | .Takes => .ok "takes"
      | .Delivers => .ok "delivers"
      | .Utilizes => .ok "utilizes"
      | .ActsAs => .ok "acts-as"
      | .Matches => .ok "matches"
      | .Exceeds => .ok "exceeds"
      | .FallsShortOf => .ok "falls-short-of"
      | .ScalesBy => .ok "scales-by"
      | .PartitionsBy => .ok "partitions-by"
      | .UnitesWith => .ok "unites-with"
      | .JoinsWith => .ok "joins-with"
      | .Opposes => .ok "opposes"
      | .DecreasedBy => .ok "decreased-by"
      | .InitOf => .ok "init-of"
      | .TailOf => .ok "tail-of"
      | .NumericLiteral n => .ok n
      | .IntegerLiteral n => .ok (toString n)
      | .TextLiteral s => .ok s
      | _ => .error (.parseError "Expected Identifier, found another")

/-- consume_identifier together with the position advance its Ok path
performs. -/
def consume_identifier_step (registry : Option Registry) (restricted : Bool)
    (ts : List Token) : Except OnuError (String × List Token) :=
  match consume_identifier registry restricted ts.head? with
  | .error e => .error e
  | .ok w => .ok (w, ts.tail)

/-- The tokens on which the concern loop of parse_module breaks,
src/parser.rs line 299. -/
def moduleStarter : Token → Bool
  | .TheModuleCalled | .TheShape | .TheBehaviorCalled
  | .TheEffectBehaviorCalled => true
  | _ => false

/-- The concern-collecting loop of parse_module, src/parser.rs lines 297
to 307: stop at end of input or a section starter, otherwise consume one
identifier word (restricted = false) and append it. -/
def parse_module_loop (registry : Option Registry) :
    List Token → String → Except OnuError (String × List Token)
  | [], concern => .ok (concern, [])
  | t :: rest, concern =>
      if moduleStarter t then .ok (concern, t :: rest)
      else
        match consume_identifier registry false (some t) with
        | .error e => .error e
        | .ok w =>
            parse_module_loop registry rest
              (if concern.isEmpty then w else concern ++ " " ++ w)

/-- Parser::parse_module, src/parser.rs lines 291 to 309.  The module name
is consumed with restricted = false. -/
def parse_module (registry : Option Registry) (ts : List Token) :
    Except OnuError (Discourse × List Token) :=
  match consume .TheModuleCalled ts with
  | .error e => .error e
  | .ok ts1 =>
      match consume_identifier_step registry false ts1 with
      | .error e => .error e
      | .ok (name, ts2) =>
          match consume .WithConcern ts2 with
          | .error e => .error e
          | .ok ts3 =>
              match consume .Colon ts3 with
              | .error e => .error e
              | .ok ts4 =>
                  match parse_module_loop registry ts4 "" with
                  | .error e => .error e
                  | .ok (concern, ts5) => .ok (.module name concern, ts5)

/-- The registry of the claim C8 statements: the behavior name add is
registered with arity two. -/
def c8Registry : Registry := Registry.new.add_name "add" 2

/-- Claim C8, counterexample: add is a behavior name known to the
Registry, yet a module named add parses successfully: the module-name
position consumes its identifier with restricted = false and never
consults the Registry. -/
theorem module_name_ignores_registry :
    c8Registry.is_registered "add" = true
      ∧ parse_module (some c8Registry)
          [.TheModuleCalled, .Identifier "add", .WithConcern, .Colon]
          = .ok (.module "add" "", []) :=
  ⟨rfl, rfl⟩

set_option maxHeartbeats 1600000 in
/-- Claim C8, amended: an identifier consumed with restricted = true is
rejected with a ParseError exactly when a registry is attached and knows
the name as a behavior, as at the derivation name, let name, parameter
name and diminishing sites; with restricted = false the registry is never
consulted, and the module-name position passes restricted = false, so a
module named after any registered behavior parses. -/
theorem consume_identifier_restriction :
    (∀ (reg : Registry) (name : String),
        consume_identifier (some reg) true (some (.Identifier name))
          = if reg.is_registered name then
              .error (.parseError
                "Ambiguous identifier: Name is already used by a registered behavior.")
            else .ok name)
    ∧ (∀ (reg : Option Registry) (name : String),
        consume_identifier reg false (some (.Identifier name)) = .ok name)
    ∧ (∀ (name : String),
        consume_identifier none true (some (.Identifier name)) = .ok name)
    ∧ (∀ (reg : Option Registry) (name : String),
        parse_module reg
          [.TheModuleCalled, .Identifier name, .WithConcern, .Colon]
          = .ok (.module name "", [])) := by
  refine ⟨?_, ?_, ?_, ?_⟩
  · intro reg name
    cases h : reg.is_registered name <;> simp [consume_identifier, h]
  · intro reg name
    rfl
  · intro name
    rfl
  · intro reg name
    rfl

/-- Lexer::lex_single_identifier_or_keyword, src/lexer.rs lines 390 to 401,
with the growing identifier as an accumulator.  The source accepts Unicode
alphanumerics; the model reads is_alphanumeric at ASCII granularity, the
only alphabet any statement below uses. -/
def lexSingleWord : List Char → String → String × List Char
  | [], acc => (acc, [])
  | c :: cs, acc =>
      if c.isAlphanum || c = '-' then lexSingleWord cs (acc.push c)
      else (acc, c :: cs)

/-- Lexer::skip_whitespace, src/lexer.rs lines 201 to 209. -/
def skip_whitespace : List Char → List Char
  | [] => []
  | c :: cs => if c.isWhitespace then skip_whitespace cs else c :: cs

/-- Lexer::lex_string, src/lexer.rs lines 427 to 438, after the opening
quote is consumed: collect characters until a closing quote or end of
input; both exits deliver a TextLiteral, so an unterminated literal still
becomes a token. -/
def lex_string : List Char → String → Token × List Char
  | [], content => (.TextLiteral content, [])
  | c :: cs, content =>
      if c = '"' then (.TextLiteral content, cs)
      else lex_string cs (content.push c)

/-- The digit-and-dot collecting loop of Lexer::lex_number, src/lexer.rs
lines 407 to 418. -/
def lexNumberLoop : List Char → String → Bool → String × Bool × List Char
  | [], acc, has_decimal => (acc, has_decimal, [])
  | c :: cs, acc, has_decimal =>
      if c.isDigit then lexNumberLoop cs (acc.push c) has_decimal
      else if c = '.' && !has_decimal then lexNumberLoop cs (acc.push c) true
      else (acc, has_decimal, c :: cs)

/-- str::parse::<i128> on the strings lex_number hands it: the value when
the string is a nonempty digit sequence no larger than i128::MAX, None on
overflow or a malformed string. -/
def parseI128 (s : String) : Option Int :=
  if s.data.isEmpty || !(s.data.all Char.isDigit) then none
  else
    let n := s.data.foldl (fun acc c => acc * 10 + (c.toNat - 48)) 0
    if n ≤ 170141183460469231731687303715884105727 then some (Int.ofNat n)
    else none

/-- Lexer::lex_number, src/lexer.rs lines 403 to 425: a raw string with a
decimal point always parses as f64 (the model keeps the raw spelling, the
view Token's PartialEq and Hash take of it is out of scope here), an
integer spelling parses as i128 and overflow propagates None. -/
def lex_number (cs : List Char) : Option (Token × List Char) :=
  match lexNumberLoop cs "" false with
  | (raw, true, rest) => some (.NumericLiteral raw, rest)
  | (raw, false, rest) =>
      match parseI128 raw with
      | some n => some (.IntegerLiteral n, rest)
      | none => none

/-- Lexer::lex_identifier_or_keyword_multi, src/lexer.rs lines 223 to 388.
The saved line/column/input triple of the source's backtracking is the
list position right after the first word, restored by reusing that list. -/
def lex_identifier_or_keyword_multi (cs : List Char) : Token × List Char :=
  let (first, cs1) := lexSingleWord cs ""
  match first with
  | "the" =>
      let (second, cs2) := lexSingleWord (skip_whitespace cs1) ""
      match second with
      | "module" =>
          let (third, cs3) := lexSingleWord (skip_whitespace cs2) ""
          if third = "called" then (.TheModuleCalled, cs3) else (.The, cs1)
      | "shape" => (.TheShape, cs2)
      | "behavior" =>
          let (third, cs3) := lexSingleWord (skip_whitespace cs2) ""
          if third = "called" then (.TheBehaviorCalled, cs3) else (.The, cs1)
      | "effect" =>
          let (third, cs3) := lexSingleWord (skip_whitespace cs2) ""
          if third = "behavior" then
            let (fourth, cs4) := lexSingleWord (skip_whitespace cs3) ""
            if fourth = "called" then (.TheEffectBehaviorCalled, cs4)
            else (.The, cs1)
          else (.The, cs1)
      | _ => (.The, cs1)
  | "with" =>
      let (second, cs2) := lexSingleWord (skip_whitespace cs1) ""
      if second = "intent" then (.WithIntent, cs2)
      else if second = "concern" then (.WithConcern, cs2)
      else if second = "diminishing" then (.WithDiminishing, cs2)
      else if second = "no" then
        let (third, cs3) := lexSingleWord (skip_whitespace cs2) ""
        if third = "guaranteed" then
          let (fourth, cs4) := lexSingleWord (skip_whitespace cs3) ""
          if fourth = "termination" then (.NoGuaranteedTermination, cs4)
          else (.With, cs1)
        else (.With, cs1)
      else (.With, cs1)
  | "keeps" =>
      let (second, cs2) := lexSingleWord (skip_whitespace cs1) ""
      if second = "internal" then (.KeepsInternal, cs2) else (.Keeps, cs1)
  | "let" => (.Let, cs1)
  | "is" => (.Is, cs1)
  | "receiving" => (.Receiving, cs1)
  | "returning" => (.Returning, cs1)
  | "as" => (.As, cs1)
  | "exposes" => (.Exposes, cs1)
  | "promises" => (.Promises, cs1)
  | "emit" => (.Emit, cs1)
  | "nothing" => (.Nothing, cs1)
  | "if" => (.If, cs1)
  | "then" => (.Then, cs1)
  | "else" => (.Else, cs1)
  | "a" =>
      let (second, cs2) := lexSingleWord (skip_whitespace cs1) ""
      if second = "behavior" then
        let (third, cs3) := lexSingleWord (skip_whitespace cs2) ""
        if third = "called" then (.TheBehaviorCalled, cs3) else (.A, cs1)
      else (.A, cs1)
  | "an" =>
      let (second, cs2) := lexSingleWord (skip_whitespace cs1) ""
      if second = "effect" then
        let (third, cs3) := lexSingleWord (skip_whitespace cs2) ""
        if third = "behavior" then
          let (fourth, cs4) := lexSingleWord (skip_whitespace cs3) ""
          if fourth = "called" then (.TheEffectBehaviorCalled, cs4)
          else (.An, cs1)
        else (.An, cs1)
      else (.An, cs1)
  | "via" => (.Via, cs1)
  | "role" => (.Role, cs1)
  | "integer" => (.Integer, cs1)
  | "float" => (.Float, cs1)
  | "realnumber" => (.RealNumber, cs1)
  | "strings" => (.Strings, cs1)
  | "matrix" => (.Matrix, cs1)
  | "true" => (.BooleanLiteral true, cs1)
  | "false" => (.BooleanLiteral false, cs1)
  | _ => (.Identifier first, cs1)

mutual
/-- Lexer::next_token, src/lexer.rs lines 150 to 199, producing the token
and the remaining input; spans are dropped.  The skip_whitespace call at
entry is inlined as the leading whitespace arm so the recursion through
the comment and unknown-character retries stays structural. -/
def next_token : List Char → Option (Token × List Char)
  | [] => none
  | c :: rest =>
      if c.isWhitespace then next_token rest
      else if c = '-' then
        match rest with
        | [] => none
        | c2 :: rest2 => if c2 = '-' then skipCommentThenNext rest2 else none
      else if c = ':' then some (.Colon, rest)
      else if c = '(' then some (.LParen, rest)
      else if c = ')' then some (.RParen, rest)
      else if c = '[' then some (.LBracket, rest)
      else if c = ']' then some (.RBracket, rest)
      else if c = '"' then some (lex_string rest "")
      else if c.isAlpha then some (lex_identifier_or_keyword_multi (c :: rest))
      else if c.isDigit then lex_number (c :: rest)
      else next_token rest

/-- Lexer::skip_comment, src/lexer.rs lines 211 to 218, fused with the
retry of the comment arm of next_token: the second dash is already
consumed by the caller, drop characters through the newline and lex on. -/
def skipCommentThenNext : List Char → Option (Token × List Char)
  | [] => none
  | c :: cs => if c = '\n' then next_token cs else skipCommentThenNext cs
end

/-- lex_string on quote-free input runs to end of input and still delivers
a TextLiteral, with nothing left to lex. -/
theorem lex_string_ends : (cs : List Char) → (acc : String) → '"' ∉ cs →
    ∃ s, lex_string cs acc = (.TextLiteral s, [])
  | [], acc, _ => ⟨acc, rfl⟩
  | c :: cs2, acc, h => by
      have hc : c ≠ '"' :=
        fun he => h (by rw [he]; exact List.mem_cons_self '"' cs2)
      obtain ⟨s, hs⟩ := lex_string_ends cs2 (acc.push c)
        (fun hm => h (List.mem_cons_of_mem c hm))
      refine ⟨s, ?_⟩
      show (if c = '"' then (Token.TextLiteral acc, cs2)
        else lex_string cs2 (acc.push c)) = (.TextLiteral s, [])
      rw [if_neg hc]
      exact hs

/-- Claim C9, counterexample: reaching end of input inside an unterminated
text literal emits a TextLiteral token holding the partial content instead
of reporting no more tokens, and a dash not followed by a second dash ends
the token stream even though further input remains, not only at a trailing
position. -/
theorem lexer_unterminated_and_midstream_dash :
    next_token ['"', 'a', 'b'] = some (.TextLiteral "ab", [])
      ∧ next_token ['-', 'x', '1'] = none := ⟨rfl, rfl⟩

/-- Claim C9, amended: next_token reports no more tokens at exhausted
input; at a dash not followed by a second dash it reports no more tokens
wherever that dash stands, not only trailing; an unterminated text literal
does not end the stream but emits a TextLiteral with all remaining input
consumed; and an integer literal whose digit string exceeds the i128 range
also ends the stream, with no token and no LexicalError. -/
theorem lexer_stop_conditions :
    next_token [] = none
    ∧ (∀ cs : List Char, cs.head? ≠ some '-' → next_token ('-' :: cs) = none)
    ∧ (∀ cs : List Char, '"' ∉ cs →
        ∃ s, next_token ('"' :: cs) = some (.TextLiteral s, []))
    ∧ next_token (List.replicate 39 '9') = none := by
  refine ⟨rfl, ?_, ?_, ?_⟩
  · intro cs h
    cases cs with
    | nil => rfl
    | cons c2 cs2 =>
        have hc : c2 ≠ '-' := fun he => h (by rw [he]; rfl)
        show (if c2 = '-' then skipCommentThenNext cs2 else none) = none
        rw [if_neg hc]
  · intro cs h
    obtain ⟨s, hs⟩ := lex_string_ends cs "" h
    refine ⟨s, ?_⟩
    show some (lex_string cs "") = some (.TextLiteral s, [])
    rw [hs]
  · rfl

/-- The dash and unterminated-string clauses of lexer_stop_conditions at
concrete inputs. -/
theorem lexer_stop_conditions_witness :
    next_token ['-', 'x'] = none
      ∧ ∃ s, next_token ['"', 'a'] = some (.TextLiteral s, []) :=
  ⟨lexer_stop_conditions.2.1 ['x'] (by decide),
   lexer_stop_conditions.2.2.1 ['a'] (by decide)⟩

/-- The semantics of the Rust cast n as i64 at n : i128: reduce modulo
2^64 and re-center into the signed 64-bit range. -/
def asI64 (n : Int) : Int :=
  let m := n % 18446744073709551616
  if m < 9223372036854775808 then m else m - 18446744073709551616

/-- The IntegerLiteral arm of Parser::parse_primary, src/parser.rs lines
477 to 482: the lexed i128 value is narrowed with as i64 and delivered as
Expression::I64; there is no overflow error path. -/
def parse_primary_integer_literal (n : Int) : Except OnuError Expression :=
  .ok (.i64 (asI64 n))

/-- Claim C10: the IntegerLiteral arm always succeeds, its value is the
literal reduced modulo 2^64 into the signed 64-bit range, and a literal
already in that range passes through unchanged. -/
theorem integer_literal_silent_wrap :
    (∀ n : Int, parse_primary_integer_literal n = .ok (.i64 (asI64 n)))
    ∧ (∀ n : Int,
        asI64 n % 18446744073709551616 = n % 18446744073709551616
          ∧ -9223372036854775808 ≤ asI64 n
          ∧ asI64 n < 9223372036854775808)
    ∧ (∀ n : Int, -9223372036854775808 ≤ n → n < 9223372036854775808 →
        asI64 n = n) := by
  refine ⟨fun n => rfl, ?_, ?_⟩
  · intro n
    have he : asI64 n = if n % 18446744073709551616 < 9223372036854775808 then
        n % 18446744073709551616
      else n % 18446744073709551616 - 18446744073709551616 := rfl
    rw [he]
    by_cases h : n % 18446744073709551616 < 9223372036854775808
    · rw [if_pos h]
      refine ⟨Int.emod_emod_of_dvd n dvd_rfl, ?_, ?_⟩ <;> omega
    · rw [if_neg h]
      refine ⟨?_, ?_, ?_⟩ <;> omega
  · intro n h1 h2
    show (if n % 18446744073709551616 < 9223372036854775808 then
        n % 18446744073709551616
      else n % 18446744073709551616 - 18446744073709551616) = n
    by_cases h : n % 18446744073709551616 < 9223372036854775808 <;>
      simp only [h, if_pos, if_neg, not_false_iff, if_true, if_false] <;>
      omega

/-- The in-range clause of integer_literal_silent_wrap at a concrete
literal. -/
theorem integer_literal_silent_wrap_witness : asI64 5 = 5 :=
  integer_literal_silent_wrap.2.2 5 (by decide) (by decide)
